import Mathlib

/-!
Shallow embedding of the stage-flow (Sankey) aggregation logic of the
job-search-sankey repository, together with theorems settling the frozen
claims about it.

The aggregator lives in the frontend `SankeyView` component (the `sankeyData`
memo): it turns a list of companies, each holding dated, named pipeline
stages, into a weighted directed flow graph.  Dates are modelled as their
millisecond timestamps (`new Date(x)` is a monotone injective map from date
strings to milliseconds, and the code only ever subtracts and compares such
values).  JavaScript's stable `Array.prototype.sort(cmp)` with a consistent
comparator has a unique possible output, so it is modelled by the
structurally recursive stable sort `List.insertionSort` over the relation
`cmp a b ≤ 0`.  A JS `Map` is modelled as an insertion-ordered association
list (updating an existing key keeps its position, new keys are appended)
and a JS `Set` as an insertion-ordered duplicate-free list.  Flow-map keys
are modelled as `(source, target)` pairs; in the code they are the strings
`source + "->" + target`, which is the same keying whenever stage names do
not contain the substring `"->"` (true of every name used here).
-/

/-- Milliseconds per day: the `1000 * 60 * 60 * 24` divisor in the code. -/
def msPerDay : Int := 1000 * 60 * 60 * 24

/-- The fixed staleness threshold (days) used by the aggregator. -/
def staleThresholdDays : Int := 30

/-- The canonical stage vocabulary, in display order (`stageOrder` in the code). -/
def stageOrder : List String :=
  ["Applied", "First Interview", "Technical Interview", "Final Interview",
   "Offer", "Rejected", "No Answer"]

/-- JavaScript `Array.prototype.indexOf`: index of the first occurrence,
`-1` when the element is absent. -/
def jsIndexOf (l : List String) (s : String) : Int :=
  match l with
  | [] => -1
  | a :: rest =>
    if a = s then 0
    else
      let r := jsIndexOf rest s
      if r = -1 then -1 else r + 1

/-- A pipeline stage record: `{stage_name, date, order}`.  `date` is the
millisecond timestamp of the stage's date, `none` when the date is missing. -/
structure Stage where
  stage_name : String
  date : Option Int
  order : Int
deriving DecidableEq

/-- A company record: `{id, name, position, link, stages}`. -/
structure Company where
  id : Nat
  name : String
  position : String
  link : String
  stages : List Stage
deriving DecidableEq

/-- The shared tie-break of the stage comparator: compare canonical positions
(`stageOrder.indexOf`), with unrecognized names (`indexOf === -1`) after all
recognized ones and tied with each other.  This block appears verbatim in
both the no-date and the equal-date branch of `sortStagesByDateThenOrder`. -/
def logicalOrderCmp (a b : Stage) : Int :=
  let orderA := jsIndexOf stageOrder a.stage_name
  let orderB := jsIndexOf stageOrder b.stage_name
  if orderA = -1 ∧ orderB = -1 then 0
  else if orderA = -1 then 1
  else if orderB = -1 then -1
  else orderA - orderB

/-- The comparator passed to `sort` by `sortStagesByDateThenOrder`:
undated stages after dated ones, dated stages by date ascending,
ties broken by canonical-vocabulary position. -/
def stageCompare (a b : Stage) : Int :=
  match a.date, b.date with
  | none, none => logicalOrderCmp a b
  | none, some _ => 1
  | some _, none => -1
  | some da, some db =>
    let dateComparison := da - db
    if dateComparison = 0 then logicalOrderCmp a b else dateComparison

/-- The preorder induced by the comparator: `a` may be placed before `b`. -/
def stageRel (a b : Stage) : Prop := stageCompare a b ≤ 0

instance : DecidableRel stageRel :=
  fun a b => inferInstanceAs (Decidable (stageCompare a b ≤ 0))

/-- `sortStagesByDateThenOrder` of the code: `[...stages].sort(cmp)`, a stable
sort of a fresh copy by the two-level comparator. -/
def sortStagesByDateThenOrder (stages : List Stage) : List Stage :=
  List.insertionSort stageRel stages

/-- The per-company filtered stage list: literal `"No Answer"` stages are
dropped before any other processing. -/
def filteredStagesOf (c : Company) : List Stage :=
  c.stages.filter (fun stage => stage.stage_name ≠ "No Answer")

/-- The mutable state accumulated by the company loop: the `flows` map
(insertion-ordered association list, as a JS `Map`) and the `nodes` set
(insertion-ordered list, as a JS `Set`). -/
structure FlowAcc where
  flows : List ((String × String) × Nat)
  nodes : List String
deriving DecidableEq

/-- `flows.get(key) || 0`. -/
def mapGetD (m : List ((String × String) × Nat)) (k : String × String) : Nat :=
  match m with
  | [] => 0
  | (k', v) :: rest => if k' = k then v else mapGetD rest k

/-- `flows.set(key, v)`: updating an existing key keeps its position,
a new key is appended. -/
def mapSet (m : List ((String × String) × Nat)) (k : String × String) (v : Nat) :
    List ((String × String) × Nat) :=
  match m with
  | [] => [(k, v)]
  | (k', v') :: rest => if k' = k then (k, v) :: rest else (k', v') :: mapSet rest k v

/-- `nodes.add(x)` on a JS `Set`. -/
def setAdd (s : List String) (x : String) : List String :=
  if x ∈ s then s else s ++ [x]

/-- One iteration of the transition loop body:
`nodes.add(source); nodes.add(target); flows.set(key, (flows.get(key) || 0) + 1)`. -/
def addPair (acc : FlowAcc) (source target : String) : FlowAcc :=
  { flows := mapSet acc.flows (source, target)
      (mapGetD acc.flows (source, target) + 1),
    nodes := setAdd (setAdd acc.nodes source) target }

/-- The `for (let i = 0; i < sortedStages.length - 1; i++)` loop recording one
flow per adjacent pair of the sorted stage list. -/
def addTransitions (acc : FlowAcc) : List Stage → FlowAcc
  | a :: b :: rest => addTransitions (addPair acc a.stage_name b.stage_name) (b :: rest)
  | _ => acc

/-- The tail of the company loop once the gates have passed: register the
first stage as a node, record the adjacent-pair transitions, then apply the
"No Answer" staleness inference.  The division by `msPerDay` in
`daysSinceLastUpdate > 30` is exact over the rationals, so the test is
equivalently `asOf - date > 30 * msPerDay`. -/
def recordFlows (asOf : Int) (acc : FlowAcc) (filteredStages sortedStages : List Stage) :
    FlowAcc :=
  match sortedStages with
  | [] => acc
  | s0 :: rest =>
    let acc1 : FlowAcc := { acc with nodes := setAdd acc.nodes s0.stage_name }
    let acc2 := addTransitions acc1 (s0 :: rest)
    let hasOffer := filteredStages.any (fun s => s.stage_name = "Offer")
    let hasRejected := filteredStages.any (fun s => s.stage_name = "Rejected")
    if hasOffer = false ∧ hasRejected = false then
      let lastStage := (s0 :: rest).getLast (List.cons_ne_nil s0 rest)
      match lastStage.date with
      | some d =>
        if asOf - d > staleThresholdDays * msPerDay then
          { flows := mapSet acc2.flows (lastStage.stage_name, "No Answer")
              (mapGetD acc2.flows (lastStage.stage_name, "No Answer") + 1),
            nodes := setAdd acc2.nodes "No Answer" }
        else acc2
      | none => acc2
    else acc2

/-- The body of `companies.forEach(company => ...)`: the empty-stages gate, the
"No Answer" filter gate, the `hasApplied` entry gate, then the sorted walk and
staleness inference. -/
def processCompany (asOf : Int) (acc : FlowAcc) (company : Company) : FlowAcc :=
  if company.stages.length = 0 then acc
  else
    let filteredStages := filteredStagesOf company
    if filteredStages.length = 0 then acc
    else
      if filteredStages.any (fun s => s.stage_name = "Applied") = false then acc
      else recordFlows asOf acc filteredStages (sortStagesByDateThenOrder filteredStages)

/-- The whole company loop, starting from the empty `flows` map and `nodes` set. -/
def buildAcc (asOf : Int) (companies : List Company) : FlowAcc :=
  companies.foldl (processCompany asOf) { flows := [], nodes := [] }

/-- `nodeList`: canonical order restricted to the nodes that occurred. -/
def nodeListOf (asOf : Int) (companies : List Company) : List String :=
  stageOrder.filter (fun stage => decide (stage ∈ (buildAcc asOf companies).nodes))

/-- `nodeMap.get(name)`: the index of `name` in `nodeList`, `none` (JavaScript
`undefined`) when absent. -/
def nodeMapGet (asOf : Int) (companies : List Company) (name : String) : Option Nat :=
  (nodeListOf asOf companies).findIdx? (fun x => decide (x = name))

/-- The comparator used to sort the flow entries for emission: by canonical
position of the source, then of the target. -/
def flowCmp (a b : (String × String) × Nat) : Int :=
  let sourceOrderA := jsIndexOf stageOrder a.1.1
  let sourceOrderB := jsIndexOf stageOrder b.1.1
  if sourceOrderA ≠ sourceOrderB then sourceOrderA - sourceOrderB
  else jsIndexOf stageOrder a.1.2 - jsIndexOf stageOrder b.1.2

/-- The preorder induced by the flow comparator. -/
def flowRel (a b : (String × String) × Nat) : Prop := flowCmp a b ≤ 0

instance : DecidableRel flowRel :=
  fun a b => inferInstanceAs (Decidable (flowCmp a b ≤ 0))

/-- `sortedFlows`: the flow entries, stably sorted by `flowCmp`. -/
def sortedFlowsOf (asOf : Int) (companies : List Company) :
    List ((String × String) × Nat) :=
  List.insertionSort flowRel (buildAcc asOf companies).flows

/-- One emitted link: `sources[i]`, `targets[i]`, `values[i]`. -/
structure SankeyLink where
  source : Option Nat
  target : Option Nat
  value : Nat
deriving DecidableEq

/-- The emitted link arrays, built from the sorted flows via `nodeMap.get`. -/
def linksOf (asOf : Int) (companies : List Company) : List SankeyLink :=
  (sortedFlowsOf asOf companies).map (fun kv =>
    { source := nodeMapGet asOf companies kv.1.1,
      target := nodeMapGet asOf companies kv.1.2,
      value := kv.2 })

/-- The per-company staleness predicate used for the "No Answer" occupancy
count (the `companies.filter(c => ...)` of the node label/customdata): no
Offer, no Rejected, a nonempty filtered stage list, and a dated, stale
chronologically-final stage. -/
def isStaleNoAnswer (asOf : Int) (c : Company) : Bool :=
  let filteredStages := filteredStagesOf c
  let hasOffer := filteredStages.any (fun s => s.stage_name = "Offer")
  let hasRejected := filteredStages.any (fun s => s.stage_name = "Rejected")
  if hasOffer = false ∧ hasRejected = false ∧ filteredStages.length > 0 then
    match sortStagesByDateThenOrder filteredStages with
    | [] => false
    | s0 :: rest =>
      match ((s0 :: rest).getLast (List.cons_ne_nil s0 rest)).date with
      | some d => decide (asOf - d > staleThresholdDays * msPerDay)
      | none => false
  else false

/-- The occupancy count attached to an emitted node: for `"No Answer"` the
number of stale companies, otherwise the number of companies whose raw stage
list contains the name (`c.stages?.some(s => s.stage_name === node)`). -/
def nodeOccupancy (asOf : Int) (companies : List Company) (node : String) : Nat :=
  if node = "No Answer" then
    (companies.filter (fun c => isStaleNoAnswer asOf c)).length
  else
    (companies.filter (fun c => c.stages.any (fun s => s.stage_name = node))).length

/-- The emitted `customdata` array: the occupancy count of each node of
`nodeList`, in order. -/
def customdataOf (asOf : Int) (companies : List Company) : List Nat :=
  (nodeListOf asOf companies).map (nodeOccupancy asOf companies)

/-! ### The historical `part_001` variant: sort by the `order` field -/

/-- The preorder induced by the `(a, b) => a.order - b.order` comparator of the
`part_001` variant. -/
def orderRel (a b : Stage) : Prop := a.order - b.order ≤ 0

instance : DecidableRel orderRel :=
  fun a b => inferInstanceAs (Decidable (a.order - b.order ≤ 0))

/-- The `part_001` variant's sort: `[...filteredStages].sort((a, b) => a.order - b.order)`. -/
def sortStagesByOrder (stages : List Stage) : List Stage :=
  List.insertionSort orderRel stages

/-- The tail of the `part_001` company loop: same transition walk, but the
staleness check has no `if (lastStage.date)` guard; a missing date makes
`new Date(lastStage.date)` evaluate to `NaN`, so `NaN > 30` is false and no
edge is synthesized, which the `none` branch models. -/
def recordFlowsByOrder (asOf : Int) (acc : FlowAcc) (filteredStages sortedStages : List Stage) :
    FlowAcc :=
  match sortedStages with
  | [] => acc
  | s0 :: rest =>
    let acc1 : FlowAcc := { acc with nodes := setAdd acc.nodes s0.stage_name }
    let acc2 := addTransitions acc1 (s0 :: rest)
    let hasOffer := filteredStages.any (fun s => s.stage_name = "Offer")
    let hasRejected := filteredStages.any (fun s => s.stage_name = "Rejected")
    if hasOffer = false ∧ hasRejected = false then
      let lastStage := (s0 :: rest).getLast (List.cons_ne_nil s0 rest)
      match lastStage.date with
      | some d =>
        if asOf - d > staleThresholdDays * msPerDay then
          { flows := mapSet acc2.flows (lastStage.stage_name, "No Answer")
              (mapGetD acc2.flows (lastStage.stage_name, "No Answer") + 1),
            nodes := setAdd acc2.nodes "No Answer" }
        else acc2
      | none => acc2
    else acc2

/-- The `part_001` variant's company loop body: identical gates, but the
stage list is sorted by the manually assigned `order` column hint. -/
def processCompanyByOrder (asOf : Int) (acc : FlowAcc) (company : Company) : FlowAcc :=
  if company.stages.length = 0 then acc
  else
    let filteredStages := filteredStagesOf company
    if filteredStages.length = 0 then acc
    else
      if filteredStages.any (fun s => s.stage_name = "Applied") = false then acc
      else recordFlowsByOrder asOf acc filteredStages (sortStagesByOrder filteredStages)

/-- The `part_001` variant's whole company loop. -/
def buildAccByOrder (asOf : Int) (companies : List Company) : FlowAcc :=
  companies.foldl (processCompanyByOrder asOf) { flows := [], nodes := [] }

/-! ### Heap model of the stage arrays

To express that the aggregator never mutates caller-owned data, the
caller-owned stage arrays are given identities: a heap maps references to
stage arrays, companies hold a reference, `[...stages]` allocates a fresh
cell, and `sort` writes into the cell it is called on.  The pure definitions
above are the denotation of this heap-passing version. -/

/-- A heap of JavaScript arrays of stages, addressed by allocation index. -/
structure Heap where
  cells : List (List Stage)
deriving DecidableEq

/-- Read the array behind a reference. -/
def Heap.read (h : Heap) (r : Nat) : List Stage := (h.cells[r]?).getD []

/-- Allocate a fresh array, returning the new heap and the new reference. -/
def Heap.alloc (h : Heap) (v : List Stage) : Heap × Nat :=
  (⟨h.cells ++ [v]⟩, h.cells.length)

/-- Overwrite the array behind a reference. -/
def Heap.write (h : Heap) (r : Nat) (v : List Stage) : Heap :=
  ⟨h.cells.set r v⟩

/-- A company whose stage array lives in the heap. -/
structure HCompany where
  id : Nat
  name : String
  position : String
  link : String
  stagesRef : Nat
deriving DecidableEq

/-- The company value a heap company denotes. -/
def HCompany.toCompany (h : Heap) (c : HCompany) : Company :=
  { id := c.id, name := c.name, position := c.position, link := c.link,
    stages := h.read c.stagesRef }

/-- Heap-level `sortStagesByDateThenOrder`: `[...stages]` allocates a fresh
copy and `.sort(cmp)` mutates only that copy, whose reference is returned. -/
def sortStagesByDateThenOrderH (h : Heap) (r : Nat) : Heap × Nat :=
  let copied := h.alloc (h.read r)
  (copied.1.write copied.2 (List.insertionSort stageRel (copied.1.read copied.2)),
   copied.2)

/-- Heap-level company loop body: reads the caller's stage array, lets
`Array.prototype.filter` allocate a fresh array, sorts a fresh copy of it,
and otherwise only updates the loop accumulator. -/
def processCompanyH (asOf : Int) (p : Heap × FlowAcc) (c : HCompany) : Heap × FlowAcc :=
  let h := p.1
  let acc := p.2
  let stages := h.read c.stagesRef
  if stages.length = 0 then (h, acc)
  else
    let filtered := h.alloc (stages.filter (fun stage => stage.stage_name ≠ "No Answer"))
    let h1 := filtered.1
    let filteredStages := h1.read filtered.2
    if filteredStages.length = 0 then (h1, acc)
    else
      if filteredStages.any (fun s => s.stage_name = "Applied") = false then (h1, acc)
      else
        let sorted := sortStagesByDateThenOrderH h1 filtered.2
        (sorted.1, recordFlows asOf acc (sorted.1.read filtered.2) (sorted.1.read sorted.2))

/-- Heap-level whole company loop. -/
def sankeyAccH (asOf : Int) (h : Heap) (companies : List HCompany) : Heap × FlowAcc :=
  companies.foldl (processCompanyH asOf) (h, { flows := [], nodes := [] })

/-! ### Ordering keys used to state the chronological-ordering policy

The claimed ordering is a two-level lexicographic one: by date ascending with
missing dates greatest, then by canonical-vocabulary position with
unrecognized names greatest.  `⊤` encodes "missing" and "unrecognized". -/

/-- The date component of a stage's sort key; `⊤` when the date is missing. -/
def dateKey (s : Stage) : WithTop Int :=
  match s.date with
  | some d => (d : WithTop Int)
  | none => ⊤

/-- The canonical rank of a stage name; `⊤` when it is not in the vocabulary. -/
def rankOf (name : String) : WithTop Int :=
  let i := jsIndexOf stageOrder name
  if i = -1 then ⊤ else (i : WithTop Int)

/-- The tie-break component of a stage's sort key. -/
def rankKey (s : Stage) : WithTop Int := rankOf s.stage_name

/-- The two-level lexicographic order the spec describes. -/
def keyLe (a b : Stage) : Prop :=
  dateKey a < dateKey b ∨ (dateKey a = dateKey b ∧ rankKey a ≤ rankKey b)

/-- Ordering of stage names by canonical rank, with equality allowed; used to
show that same-dated canonical stages sort into a unique name sequence. -/
def nameRel (s t : String) : Prop := rankOf s < rankOf t ∨ s = t

/-! ### Concrete inputs used by witnesses and counterexamples -/

/-- A small stage list exercising dated, undated and unrecognized stages. -/
def demoStages : List Stage :=
  [⟨"Offer", some 5, 0⟩, ⟨"Applied", none, 1⟩, ⟨"Screening", some 5, 2⟩,
   ⟨"Applied", some 3, 3⟩]

/-- A reference time 45 days after the epoch. -/
def asOf45 : Int := 45 * msPerDay

/-- A company whose only stage is `Applied` at day 0. -/
def cApplied0 : Company := ⟨1, "Acme", "Dev", "", [⟨"Applied", some 0, 0⟩]⟩

/-- A company with a dated, stale final stage but no `Applied` stage. -/
def cNoEntry : Company := ⟨2, "NoEntry", "Dev", "", [⟨"First Interview", some 0, 0⟩]⟩

/-- A company that passed from `Applied` to `First Interview`. -/
def cAppliedFI : Company :=
  ⟨3, "Gated", "Dev", "",
   [⟨"Applied", some 0, 0⟩, ⟨"First Interview", some msPerDay, 1⟩]⟩

/-- A company holding only a `First Interview` stage. -/
def cOnlyFI : Company := ⟨4, "OnlyFI", "Dev", "", [⟨"First Interview", some 0, 0⟩]⟩

/-- A company whose dates were edited against the column order: the `order`
field says `Applied` before `First Interview`, the dates say the opposite. -/
def cEditedDates : Company :=
  ⟨5, "Edited", "Dev", "",
   [⟨"Applied", some (10 * msPerDay), 0⟩, ⟨"First Interview", some 0, 1⟩]⟩

/-- A company resolved to `Rejected` long ago. -/
def cRejectedCo : Company :=
  ⟨6, "Done", "Dev", "",
   [⟨"Applied", some 0, 0⟩, ⟨"Rejected", some (10 * msPerDay), 1⟩]⟩

/-- A company with a stage name outside the canonical vocabulary. -/
def cUnknownCo : Company :=
  ⟨7, "Odd", "Dev", "", [⟨"Applied", some 0, 0⟩, ⟨"Phone Screen", some 1, 1⟩]⟩

/-- Same-dated stages with two unrecognized names, in one input order... -/
def cTieXY : Company :=
  ⟨8, "Tie", "Dev", "",
   [⟨"Applied", some 0, 0⟩, ⟨"X Round", some 0, 1⟩, ⟨"Y Round", some 0, 2⟩]⟩

/-- ...and the same stages with the two unrecognized ones swapped. -/
def cTieYX : Company :=
  ⟨8, "Tie", "Dev", "",
   [⟨"Applied", some 0, 0⟩, ⟨"Y Round", some 0, 2⟩, ⟨"X Round", some 0, 1⟩]⟩

/-- Same-dated canonical stages, in one input order... -/
def cPermA : Company :=
  ⟨9, "Perm", "Dev", "",
   [⟨"Applied", some 0, 0⟩, ⟨"First Interview", some 0, 1⟩,
    ⟨"Technical Interview", some 0, 2⟩]⟩

/-- ...and a permutation of the same stage array. -/
def cPermB : Company :=
  ⟨9, "Perm", "Dev", "",
   [⟨"Technical Interview", some 0, 2⟩, ⟨"Applied", some 0, 0⟩,
    ⟨"First Interview", some 0, 1⟩]⟩

/-- A one-cell heap holding a caller-owned, deliberately unsorted stage array. -/
def heap0 : Heap :=
  ⟨[[⟨"First Interview", some msPerDay, 1⟩, ⟨"Applied", some 0, 0⟩]]⟩

/-- A heap company referencing the array of `heap0`. -/
def hco0 : HCompany := ⟨10, "Heap", "Dev", "", 0⟩

/-! ### Properties of `jsIndexOf` and the stage comparator -/

theorem jsIndexOf_eq_neg_one_or_nonneg (l : List String) (s : String) :
    jsIndexOf l s = -1 ∨ 0 ≤ jsIndexOf l s := by
  induction l with
  | nil => exact Or.inl rfl
  | cons a rest ih =>
    simp only [jsIndexOf]
    by_cases h : a = s
    · right; simp [h]
    · rw [if_neg h]
      by_cases hr : jsIndexOf rest s = -1
      · left; simp [hr]
      · right
        rcases ih with h1 | h1
        · exact absurd h1 hr
        · rw [if_neg hr]; omega

theorem jsIndexOf_eq_neg_one_iff (l : List String) (s : String) :
    jsIndexOf l s = -1 ↔ s ∉ l := by
  induction l with
  | nil => simp [jsIndexOf]
  | cons a rest ih =>
    simp only [jsIndexOf]
    by_cases h : a = s
    · subst h
      rw [if_pos rfl]
      exact iff_of_false (by omega) (by simp)
    · rw [if_neg h]
      by_cases hr : jsIndexOf rest s = -1
      · rw [if_pos hr]
        refine iff_of_true rfl ?_
        simp only [List.mem_cons, not_or]
        exact ⟨fun e => h e.symm, ih.mp hr⟩
      · rw [if_neg hr]
        have hge : 0 ≤ jsIndexOf rest s :=
          (jsIndexOf_eq_neg_one_or_nonneg rest s).resolve_left hr
        have hs : s ∈ rest := by
          by_contra hn
          exact hr (ih.mpr hn)
        exact iff_of_false (by omega) (by simp [hs])

theorem jsIndexOf_inj {l : List String} {s t : String} (hs : s ∈ l) (ht : t ∈ l)
    (h : jsIndexOf l s = jsIndexOf l t) : s = t := by
  induction l with
  | nil => cases hs
  | cons a rest ih =>
    simp only [jsIndexOf] at h
    by_cases h1 : a = s
    · by_cases h2 : a = t
      · exact h1.symm.trans h2
      · exfalso
        have ht' : t ∈ rest := by
          rcases List.mem_cons.mp ht with e | e
          · exact absurd e.symm h2
          · exact e
        have hne : jsIndexOf rest t ≠ -1 :=
          fun e => ((jsIndexOf_eq_neg_one_iff rest t).mp e) ht'
        have hge : 0 ≤ jsIndexOf rest t :=
          (jsIndexOf_eq_neg_one_or_nonneg rest t).resolve_left hne
        rw [if_pos h1, if_neg h2, if_neg hne] at h
        omega
    · by_cases h2 : a = t
      · exfalso
        have hs' : s ∈ rest := by
          rcases List.mem_cons.mp hs with e | e
          · exact absurd e.symm h1
          · exact e
        have hne : jsIndexOf rest s ≠ -1 :=
          fun e => ((jsIndexOf_eq_neg_one_iff rest s).mp e) hs'
        have hge : 0 ≤ jsIndexOf rest s :=
          (jsIndexOf_eq_neg_one_or_nonneg rest s).resolve_left hne
        rw [if_neg h1, if_pos h2, if_neg hne] at h
        omega
      · have hs' : s ∈ rest := by
          rcases List.mem_cons.mp hs with e | e
          · exact absurd e.symm h1
          · exact e
        have ht' : t ∈ rest := by
          rcases List.mem_cons.mp ht with e | e
          · exact absurd e.symm h2
          · exact e
        have hnes : jsIndexOf rest s ≠ -1 :=
          fun e => ((jsIndexOf_eq_neg_one_iff rest s).mp e) hs'
        have hnet : jsIndexOf rest t ≠ -1 :=
          fun e => ((jsIndexOf_eq_neg_one_iff rest t).mp e) ht'
        rw [if_neg h1, if_neg h2, if_neg hnes, if_neg hnet] at h
        exact ih hs' ht' (by omega)

theorem logicalOrderCmp_le_iff (a b : Stage) :
    logicalOrderCmp a b ≤ 0 ↔ rankKey a ≤ rankKey b := by
  by_cases hA1 : jsIndexOf stageOrder a.stage_name = -1 <;>
    by_cases hB1 : jsIndexOf stageOrder b.stage_name = -1
  · simp [logicalOrderCmp, rankKey, rankOf, hA1, hB1]
  · have hge : 0 ≤ jsIndexOf stageOrder b.stage_name :=
      (jsIndexOf_eq_neg_one_or_nonneg _ _).resolve_left hB1
    simp only [logicalOrderCmp, rankKey, rankOf, hA1, hB1, and_false, true_and,
      if_false, if_true, reduceIte]
    exact iff_of_false (by omega) (by simp)
  · have hge : 0 ≤ jsIndexOf stageOrder a.stage_name :=
      (jsIndexOf_eq_neg_one_or_nonneg _ _).resolve_left hA1
    simp only [logicalOrderCmp, rankKey, rankOf, hA1, hB1, false_and,
      if_false, if_true, reduceIte]
    exact iff_of_true (by omega) le_top
  · simp only [logicalOrderCmp, rankKey, rankOf, hA1, hB1, false_and,
      if_false, reduceIte]
    rw [WithTop.coe_le_coe]
    omega

theorem stageRel_iff (a b : Stage) : stageRel a b ↔ keyLe a b := by
  obtain ⟨na, da, oa⟩ := a
  obtain ⟨nb, db, ob⟩ := b
  rcases da with _ | da <;> rcases db with _ | db
  · simpa [stageRel, stageCompare, keyLe, dateKey] using
      logicalOrderCmp_le_iff ⟨na, none, oa⟩ ⟨nb, none, ob⟩
  · refine iff_of_false ?_ ?_
    · simp only [stageRel, stageCompare]
      omega
    · simp [keyLe, dateKey]
  · refine iff_of_true ?_ ?_
    · simp only [stageRel, stageCompare]
      omega
    · refine Or.inl ?_
      simp [dateKey]
  · by_cases hd : da - db = 0
    · have he : da = db := by omega
      subst he
      simp only [stageRel, stageCompare, if_pos hd, keyLe, dateKey]
      simpa [lt_irrefl] using logicalOrderCmp_le_iff ⟨na, some da, oa⟩ ⟨nb, some da, ob⟩
    · simp only [stageRel, stageCompare, if_neg hd, keyLe, dateKey]
      constructor
      · intro hle
        exact Or.inl (by exact_mod_cast (show da < db by omega))
      · rintro (hk | ⟨hk, -⟩)
        · have hlt : da < db := by exact_mod_cast hk
          omega
        · have heq : da = db := by exact_mod_cast hk
          omega

theorem stageRel_total (a b : Stage) : stageRel a b ∨ stageRel b a := by
  rcases lt_trichotomy (dateKey a) (dateKey b) with h | h | h
  · exact Or.inl ((stageRel_iff a b).mpr (Or.inl h))
  · rcases le_total (rankKey a) (rankKey b) with h2 | h2
    · exact Or.inl ((stageRel_iff a b).mpr (Or.inr ⟨h, h2⟩))
    · exact Or.inr ((stageRel_iff b a).mpr (Or.inr ⟨h.symm, h2⟩))
  · exact Or.inr ((stageRel_iff b a).mpr (Or.inl h))

theorem stageRel_trans (a b c : Stage) (h1 : stageRel a b) (h2 : stageRel b c) :
    stageRel a c := by
  rw [stageRel_iff] at *
  rcases h1 with h1 | ⟨h1e, h1r⟩ <;> rcases h2 with h2 | ⟨h2e, h2r⟩
  · exact Or.inl (h1.trans h2)
  · exact Or.inl (lt_of_lt_of_le h1 (le_of_eq h2e))
  · exact Or.inl (lt_of_le_of_lt (le_of_eq h1e) h2)
  · exact Or.inr ⟨h1e.trans h2e, h1r.trans h2r⟩

/-- C1: for every stage list, `sortStagesByDateThenOrder` returns a permutation
that is ordered by date ascending with undated stages after all dated ones,
ties (same date, or both undated) broken by canonical-vocabulary position with
unrecognized names after all recognized ones; the comparator-induced preorder
is total, and the sort is stable (any comparator-ordered pair keeps its
relative input order). -/
theorem C1_chronological_ordering_policy (stages : List Stage) :
    (sortStagesByDateThenOrder stages).Perm stages
    ∧ (sortStagesByDateThenOrder stages).Pairwise keyLe
    ∧ (∀ a b : Stage, stageRel a b ∨ stageRel b a)
    ∧ (∀ a b : Stage, stageRel a b → List.Sublist [a, b] stages →
        List.Sublist [a, b] (sortStagesByDateThenOrder stages)) := by
  haveI : IsTotal Stage stageRel := ⟨stageRel_total⟩
  haveI : IsTrans Stage stageRel := ⟨stageRel_trans⟩
  refine ⟨List.perm_insertionSort stageRel stages, ?_, stageRel_total, ?_⟩
  · exact (List.sorted_insertionSort stageRel stages).imp
      (fun h => (stageRel_iff _ _).mp h)
  · exact fun a b hab h => List.pair_sublist_insertionSort hab h

/-- Witness for C1 at a concrete stage list. -/
theorem C1_witness :
    (sortStagesByDateThenOrder demoStages).Perm demoStages
    ∧ (sortStagesByDateThenOrder demoStages).Pairwise keyLe
    ∧ (∀ a b : Stage, stageRel a b ∨ stageRel b a)
    ∧ (∀ a b : Stage, stageRel a b → List.Sublist [a, b] demoStages →
        List.Sublist [a, b] (sortStagesByDateThenOrder demoStages)) :=
  C1_chronological_ordering_policy demoStages

/-! ### Properties of the flow map, the node set and the transition loop -/

theorem mapGetD_mapSet_self (m : List ((String × String) × Nat))
    (k : String × String) (v : Nat) : mapGetD (mapSet m k v) k = v := by
  induction m with
  | nil => simp [mapSet, mapGetD]
  | cons kv rest ih =>
    obtain ⟨k', v'⟩ := kv
    by_cases h : k' = k
    · simp [mapSet, h, mapGetD]
    · simp [mapSet, h, mapGetD, ih]

theorem mapGetD_mapSet_ne (m : List ((String × String) × Nat))
    {k k' : String × String} (h : k ≠ k') (v : Nat) :
    mapGetD (mapSet m k v) k' = mapGetD m k' := by
  induction m with
  | nil => simp [mapSet, mapGetD, h]
  | cons kv rest ih =>
    obtain ⟨k0, v0⟩ := kv
    by_cases h0 : k0 = k
    · subst h0
      simp [mapSet, mapGetD, h]
    · simp [mapSet, h0, mapGetD, ih]

theorem mapSet_key_mem {m : List ((String × String) × Nat)}
    {k : String × String} {v : Nat} :
    ∀ kv ∈ mapSet m k v, kv.1 = k ∨ kv ∈ m := by
  induction m with
  | nil => simp [mapSet]
  | cons kv0 rest ih =>
    obtain ⟨k0, v0⟩ := kv0
    intro kv hkv
    by_cases h0 : k0 = k
    · rw [mapSet, if_pos h0] at hkv
      rcases List.mem_cons.mp hkv with e | e
      · exact Or.inl (by rw [e])
      · exact Or.inr (List.mem_cons_of_mem _ e)
    · rw [mapSet, if_neg h0] at hkv
      rcases List.mem_cons.mp hkv with e | e
      · exact Or.inr (by rw [e]; exact List.mem_cons_self _ _)
      · rcases ih kv e with h1 | h1
        · exact Or.inl h1
        · exact Or.inr (List.mem_cons_of_mem _ h1)

theorem setAdd_mem_iff {s : List String} {x y : String} :
    y ∈ setAdd s x ↔ y = x ∨ y ∈ s := by
  unfold setAdd
  by_cases h : x ∈ s
  · rw [if_pos h]
    constructor
    · exact Or.inr
    · rintro (rfl | hy)
      · exact h
      · exact hy
  · rw [if_neg h]
    simp [or_comm]

theorem addPair_nodes_mem {acc : FlowAcc} {s t y : String} :
    y ∈ (addPair acc s t).nodes ↔ y = t ∨ y = s ∨ y ∈ acc.nodes := by
  simp [addPair, setAdd_mem_iff]

theorem addPair_getD_self (acc : FlowAcc) (s t : String) :
    mapGetD (addPair acc s t).flows (s, t) = mapGetD acc.flows (s, t) + 1 :=
  mapGetD_mapSet_self _ _ _

theorem addPair_getD_ne (acc : FlowAcc) {s t : String} {k : String × String}
    (h : (s, t) ≠ k) :
    mapGetD (addPair acc s t).flows k = mapGetD acc.flows k :=
  mapGetD_mapSet_ne _ h _

theorem addPair_getD_mono (acc : FlowAcc) (s t : String) (k : String × String) :
    mapGetD acc.flows k ≤ mapGetD (addPair acc s t).flows k := by
  by_cases h : (s, t) = k
  · subst h
    rw [addPair_getD_self]
    omega
  · rw [addPair_getD_ne acc h]

theorem addTransitions_getD_mono (l : List Stage) (acc : FlowAcc) (k : String × String) :
    mapGetD acc.flows k ≤ mapGetD (addTransitions acc l).flows k := by
  induction l generalizing acc with
  | nil => simp [addTransitions]
  | cons a rest ih =>
    cases rest with
    | nil => simp [addTransitions]
    | cons b rest' =>
      rw [addTransitions]
      exact le_trans (addPair_getD_mono acc a.stage_name b.stage_name k)
        (ih (addPair acc a.stage_name b.stage_name))

theorem addTransitions_nodes_mono (l : List Stage) (acc : FlowAcc) {y : String}
    (h : y ∈ acc.nodes) : y ∈ (addTransitions acc l).nodes := by
  induction l generalizing acc with
  | nil => simpa [addTransitions] using h
  | cons a rest ih =>
    cases rest with
    | nil => simpa [addTransitions] using h
    | cons b rest' =>
      rw [addTransitions]
      exact ih _ (addPair_nodes_mem.mpr (Or.inr (Or.inr h)))

theorem addTransitions_getD_noTarget (l : List Stage) (acc : FlowAcc) {nm : String}
    (h : ∀ x ∈ l, x.stage_name ≠ nm) (s : String) :
    mapGetD (addTransitions acc l).flows (s, nm) = mapGetD acc.flows (s, nm) := by
  induction l generalizing acc with
  | nil => simp [addTransitions]
  | cons a rest ih =>
    cases rest with
    | nil => simp [addTransitions]
    | cons b rest' =>
      rw [addTransitions]
      have hb : b.stage_name ≠ nm := h b (List.mem_cons_of_mem _ (List.mem_cons_self _ _))
      have hk : (a.stage_name, b.stage_name) ≠ (s, nm) := by
        intro e
        exact hb (congrArg Prod.snd e)
      rw [ih _ (fun x hx => h x (List.mem_cons_of_mem _ hx)), addPair_getD_ne acc hk]

theorem addTransitions_nodes_noName (l : List Stage) (acc : FlowAcc) {nm : String}
    (h : ∀ x ∈ l, x.stage_name ≠ nm) :
    nm ∈ (addTransitions acc l).nodes ↔ nm ∈ acc.nodes := by
  induction l generalizing acc with
  | nil => simp [addTransitions]
  | cons a rest ih =>
    cases rest with
    | nil => simp [addTransitions]
    | cons b rest' =>
      rw [addTransitions]
      rw [ih _ (fun x hx => h x (List.mem_cons_of_mem _ hx)), addPair_nodes_mem]
      have ha : a.stage_name ≠ nm := h a (List.mem_cons_self _ _)
      have hb : b.stage_name ≠ nm := h b (List.mem_cons_of_mem _ (List.mem_cons_self _ _))
      constructor
      · rintro (e | e | e)
        · exact absurd e.symm hb
        · exact absurd e.symm ha
        · exact e
      · exact fun e => Or.inr (Or.inr e)

theorem addTransitions_getD_adjacent (pre : List Stage) (a b : Stage)
    (post : List Stage) (acc : FlowAcc) :
    mapGetD acc.flows (a.stage_name, b.stage_name) + 1 ≤
      mapGetD (addTransitions acc (pre ++ a :: b :: post)).flows
        (a.stage_name, b.stage_name) := by
  induction pre generalizing acc with
  | nil =>
    rw [List.nil_append, addTransitions]
    calc mapGetD acc.flows (a.stage_name, b.stage_name) + 1
        = mapGetD (addPair acc a.stage_name b.stage_name).flows
            (a.stage_name, b.stage_name) := (addPair_getD_self acc _ _).symm
      _ ≤ _ := addTransitions_getD_mono _ _ _
  | cons x pre' ih =>
    rcases hp : pre' ++ a :: b :: post with _ | ⟨y, ys⟩
    · exact absurd hp (List.append_ne_nil_of_right_ne_nil _ (List.cons_ne_nil _ _))
    · rw [List.cons_append, hp, addTransitions, ← hp]
      calc mapGetD acc.flows (a.stage_name, b.stage_name) + 1
          ≤ mapGetD (addPair acc x.stage_name y.stage_name).flows
              (a.stage_name, b.stage_name) + 1 :=
            Nat.add_le_add_right (addPair_getD_mono acc _ _ _) 1
        _ ≤ _ := ih _

theorem addTransitions_names_mem (a : Stage) (l : List Stage) (acc : FlowAcc)
    (ha : a.stage_name ∈ acc.nodes) :
    ∀ x ∈ a :: l, x.stage_name ∈ (addTransitions acc (a :: l)).nodes := by
  induction l generalizing a acc with
  | nil =>
    intro x hx
    rcases List.mem_cons.mp hx with e | e
    · subst e
      simpa [addTransitions] using ha
    · cases e
  | cons b rest ih =>
    intro x hx
    rw [addTransitions]
    have hb : b.stage_name ∈ (addPair acc a.stage_name b.stage_name).nodes :=
      addPair_nodes_mem.mpr (Or.inl rfl)
    rcases List.mem_cons.mp hx with e | e
    · subst e
      exact addTransitions_nodes_mono _ _
        (addPair_nodes_mem.mpr (Or.inr (Or.inl rfl)))
    · exact ih b (addPair acc a.stage_name b.stage_name) hb x e

theorem mapSet_incr_getD_mono (m : List ((String × String) × Nat))
    (key k : String × String) :
    mapGetD m k ≤ mapGetD (mapSet m key (mapGetD m key + 1)) k := by
  by_cases h : key = k
  · subst h
    rw [mapGetD_mapSet_self]
    omega
  · rw [mapGetD_mapSet_ne m h]

theorem recordFlows_getD_mono (asOf : Int) (acc : FlowAcc) (fl sl : List Stage)
    (k : String × String) :
    mapGetD acc.flows k ≤ mapGetD (recordFlows asOf acc fl sl).flows k := by
  cases sl with
  | nil => simp [recordFlows]
  | cons s0 rest =>
    have hacc1 : mapGetD acc.flows k ≤
        mapGetD (addTransitions { acc with nodes := setAdd acc.nodes s0.stage_name }
          (s0 :: rest)).flows k :=
      addTransitions_getD_mono (s0 :: rest)
        ⟨acc.flows, setAdd acc.nodes s0.stage_name⟩ k
    simp only [recordFlows]
    split
    · split
      · split
        · exact le_trans hacc1 (mapSet_incr_getD_mono _ _ _)
        · exact hacc1
      · exact hacc1
    · exact hacc1

theorem recordFlows_nodes_mono (asOf : Int) (acc : FlowAcc) (fl sl : List Stage)
    {y : String} (h : y ∈ acc.nodes) :
    y ∈ (recordFlows asOf acc fl sl).nodes := by
  cases sl with
  | nil => simpa [recordFlows] using h
  | cons s0 rest =>
    have hacc1 : y ∈ (addTransitions
        { acc with nodes := setAdd acc.nodes s0.stage_name } (s0 :: rest)).nodes :=
      addTransitions_nodes_mono (s0 :: rest)
        ⟨acc.flows, setAdd acc.nodes s0.stage_name⟩
        (show y ∈ setAdd acc.nodes s0.stage_name from setAdd_mem_iff.mpr (Or.inr h))
    simp only [recordFlows]
    split
    · split
      · split
        · exact setAdd_mem_iff.mpr (Or.inr hacc1)
        · exact hacc1
      · exact hacc1
    · exact hacc1

theorem processCompany_getD_mono (asOf : Int) (acc : FlowAcc) (c : Company)
    (k : String × String) :
    mapGetD acc.flows k ≤ mapGetD (processCompany asOf acc c).flows k := by
  simp only [processCompany]
  split
  · exact le_refl _
  · split
    · exact le_refl _
    · split
      · exact le_refl _
      · exact recordFlows_getD_mono asOf acc _ _ k

theorem processCompany_nodes_mono (asOf : Int) (acc : FlowAcc) (c : Company)
    {y : String} (h : y ∈ acc.nodes) :
    y ∈ (processCompany asOf acc c).nodes := by
  simp only [processCompany]
  split
  · exact h
  · split
    · exact h
    · split
      · exact h
      · exact recordFlows_nodes_mono asOf acc _ _ h

theorem foldl_getD_mono (asOf : Int) (cs : List Company) (acc : FlowAcc)
    (k : String × String) :
    mapGetD acc.flows k ≤ mapGetD (cs.foldl (processCompany asOf) acc).flows k := by
  induction cs generalizing acc with
  | nil => simp
  | cons c rest ih =>
    rw [List.foldl_cons]
    exact le_trans (processCompany_getD_mono asOf acc c k) (ih _)

theorem foldl_nodes_mono (asOf : Int) (cs : List Company) (acc : FlowAcc)
    {y : String} (h : y ∈ acc.nodes) :
    y ∈ (cs.foldl (processCompany asOf) acc).nodes := by
  induction cs generalizing acc with
  | nil => simpa using h
  | cons c rest ih =>
    rw [List.foldl_cons]
    exact ih _ (processCompany_nodes_mono asOf acc c h)

/-! ### Behaviour of the staleness branch -/

theorem recordFlows_terminal_noAnswer (asOf : Int) (acc : FlowAcc) (fl sl : List Stage)
    (hnames : ∀ x ∈ sl, x.stage_name ≠ "No Answer")
    (hterm : ¬(fl.any (fun s => s.stage_name = "Offer") = false
        ∧ fl.any (fun s => s.stage_name = "Rejected") = false)) :
    (∀ s, mapGetD (recordFlows asOf acc fl sl).flows (s, "No Answer")
        = mapGetD acc.flows (s, "No Answer"))
    ∧ ("No Answer" ∈ (recordFlows asOf acc fl sl).nodes ↔ "No Answer" ∈ acc.nodes) := by
  cases sl with
  | nil => exact ⟨fun s => rfl, Iff.rfl⟩
  | cons s0 rest =>
    simp only [recordFlows]
    rw [if_neg hterm]
    have hs0 : s0.stage_name ≠ "No Answer" := hnames s0 (List.mem_cons_self _ _)
    constructor
    · intro s
      exact addTransitions_getD_noTarget (s0 :: rest) _ hnames s
    · rw [addTransitions_nodes_noName (s0 :: rest) _ hnames]
      show "No Answer" ∈ setAdd acc.nodes s0.stage_name ↔ _
      rw [setAdd_mem_iff]
      constructor
      · rintro (e | e)
        · exact absurd e.symm hs0
        · exact e
      · exact Or.inr

theorem recordFlows_noStale (asOf : Int) (acc : FlowAcc) (fl : List Stage)
    (s0 : Stage) (rest : List Stage)
    (hnames : ∀ x ∈ s0 :: rest, x.stage_name ≠ "No Answer")
    (hno : ∀ d, ((s0 :: rest).getLast (List.cons_ne_nil s0 rest)).date = some d →
        ¬(asOf - d > staleThresholdDays * msPerDay)) :
    (∀ s, mapGetD (recordFlows asOf acc fl (s0 :: rest)).flows (s, "No Answer")
        = mapGetD acc.flows (s, "No Answer"))
    ∧ ("No Answer" ∈ (recordFlows asOf acc fl (s0 :: rest)).nodes
        ↔ "No Answer" ∈ acc.nodes) := by
  have hs0 : s0.stage_name ≠ "No Answer" := hnames s0 (List.mem_cons_self _ _)
  have himm : (∀ s, mapGetD (addTransitions
        { acc with nodes := setAdd acc.nodes s0.stage_name } (s0 :: rest)).flows
          (s, "No Answer") = mapGetD acc.flows (s, "No Answer"))
      ∧ ("No Answer" ∈ (addTransitions
          { acc with nodes := setAdd acc.nodes s0.stage_name } (s0 :: rest)).nodes
        ↔ "No Answer" ∈ acc.nodes) := by
    constructor
    · intro s
      exact addTransitions_getD_noTarget (s0 :: rest) _ hnames s
    · rw [addTransitions_nodes_noName (s0 :: rest) _ hnames]
      show "No Answer" ∈ setAdd acc.nodes s0.stage_name ↔ _
      rw [setAdd_mem_iff]
      constructor
      · rintro (e | e)
        · exact absurd e.symm hs0
        · exact e
      · exact Or.inr
  simp only [recordFlows]
  split
  · rcases hd : ((s0 :: rest).getLast (List.cons_ne_nil s0 rest)).date with _ | d
    · exact himm
    · dsimp only
      rw [if_neg (hno d hd)]
      exact himm
  · exact himm

theorem recordFlows_stale (asOf : Int) (acc : FlowAcc) (fl : List Stage)
    (s0 : Stage) (rest : List Stage)
    (hnames : ∀ x ∈ s0 :: rest, x.stage_name ≠ "No Answer")
    (hoff : fl.any (fun s => s.stage_name = "Offer") = false)
    (hrej : fl.any (fun s => s.stage_name = "Rejected") = false)
    (d : Int)
    (hd : ((s0 :: rest).getLast (List.cons_ne_nil s0 rest)).date = some d)
    (hstale : asOf - d > staleThresholdDays * msPerDay) :
    (∀ s, mapGetD (recordFlows asOf acc fl (s0 :: rest)).flows (s, "No Answer")
        = mapGetD acc.flows (s, "No Answer")
          + (if s = ((s0 :: rest).getLast (List.cons_ne_nil s0 rest)).stage_name
              then 1 else 0))
    ∧ "No Answer" ∈ (recordFlows asOf acc fl (s0 :: rest)).nodes := by
  have himm : ∀ s, mapGetD (addTransitions
        { acc with nodes := setAdd acc.nodes s0.stage_name } (s0 :: rest)).flows
          (s, "No Answer") = mapGetD acc.flows (s, "No Answer") :=
    fun s => addTransitions_getD_noTarget (s0 :: rest) _ hnames s
  simp only [recordFlows]
  rw [if_pos ⟨hoff, hrej⟩, hd]
  simp only []
  rw [if_pos hstale]
  constructor
  · intro s
    by_cases hs : s = ((s0 :: rest).getLast (List.cons_ne_nil s0 rest)).stage_name
    · subst hs
      rw [if_pos rfl]
      show mapGetD (mapSet _ _ _) _ = _
      rw [mapGetD_mapSet_self, himm]
    · rw [if_neg hs]
      show mapGetD (mapSet _ _ _) _ = _
      have hk : (((s0 :: rest).getLast (List.cons_ne_nil s0 rest)).stage_name,
          "No Answer") ≠ (s, "No Answer") := by
        intro e
        exact hs (congrArg Prod.fst e).symm
      rw [mapGetD_mapSet_ne _ hk, himm]
      omega
  · exact setAdd_mem_iff.mpr (Or.inl rfl)

theorem sorted_filtered_names (c : Company) :
    ∀ x ∈ sortStagesByDateThenOrder (filteredStagesOf c),
      x.stage_name ≠ "No Answer" := by
  intro x hx
  have hxf : x ∈ filteredStagesOf c := (List.mem_insertionSort stageRel).mp hx
  exact of_decide_eq_true (List.mem_filter.mp hxf).2

theorem processCompany_eq_recordFlows (asOf : Int) (acc : FlowAcc) (c : Company)
    (hst : c.stages.length ≠ 0)
    (hf : (filteredStagesOf c).length ≠ 0)
    (hap : (filteredStagesOf c).any (fun s => s.stage_name = "Applied") = true) :
    processCompany asOf acc c
      = recordFlows asOf acc (filteredStagesOf c)
          (sortStagesByDateThenOrder (filteredStagesOf c)) := by
  simp only [processCompany]
  rw [if_neg hst, if_neg hf, if_neg (by simp [hap])]

theorem processCompany_eq_acc_of_not_applied (asOf : Int) (acc : FlowAcc) (c : Company)
    (hap : (filteredStagesOf c).any (fun s => s.stage_name = "Applied") = false) :
    processCompany asOf acc c = acc := by
  simp only [processCompany, hap]
  split
  · rfl
  · split
    · rfl
    · rfl

/-- C5: a company whose filtered stage set contains `Offer` or `Rejected` never
has a "No Answer" edge synthesized for it, never changes whether the
"No Answer" node is registered, and never counts toward the "No Answer"
occupancy, no matter how stale its last stage is (the reference time is
universally quantified). -/
theorem C5_terminal_never_no_answer (asOf : Int) (acc : FlowAcc) (c : Company)
    (h : (filteredStagesOf c).any (fun s => s.stage_name = "Offer") = true
       ∨ (filteredStagesOf c).any (fun s => s.stage_name = "Rejected") = true) :
    (∀ s, mapGetD (processCompany asOf acc c).flows (s, "No Answer")
        = mapGetD acc.flows (s, "No Answer"))
    ∧ ("No Answer" ∈ (processCompany asOf acc c).nodes ↔ "No Answer" ∈ acc.nodes)
    ∧ isStaleNoAnswer asOf c = false := by
  have hterm : ¬((filteredStagesOf c).any (fun s => s.stage_name = "Offer") = false
      ∧ (filteredStagesOf c).any (fun s => s.stage_name = "Rejected") = false) := by
    rintro ⟨h1, h2⟩
    rcases h with h | h
    · rw [h] at h1
      exact Bool.noConfusion h1
    · rw [h] at h2
      exact Bool.noConfusion h2
  have hstale : isStaleNoAnswer asOf c = false := by
    simp only [isStaleNoAnswer]
    rw [if_neg (by rintro ⟨h1, h2, -⟩; exact hterm ⟨h1, h2⟩)]
  have hmain : (∀ s, mapGetD (processCompany asOf acc c).flows (s, "No Answer")
      = mapGetD acc.flows (s, "No Answer"))
      ∧ ("No Answer" ∈ (processCompany asOf acc c).nodes ↔ "No Answer" ∈ acc.nodes) := by
    simp only [processCompany]
    split
    · exact ⟨fun s => rfl, Iff.rfl⟩
    · split
      · exact ⟨fun s => rfl, Iff.rfl⟩
      · split
        · exact ⟨fun s => rfl, Iff.rfl⟩
        · exact recordFlows_terminal_noAnswer asOf acc _ _
            (sorted_filtered_names c) hterm
  exact ⟨hmain.1, hmain.2, hstale⟩

/-- Witness for C5: a long-rejected company, checked 1000 days after applying. -/
theorem C5_witness :
    ((filteredStagesOf cRejectedCo).any (fun s => s.stage_name = "Offer") = true
       ∨ (filteredStagesOf cRejectedCo).any (fun s => s.stage_name = "Rejected") = true)
    ∧ ((∀ s, mapGetD (processCompany (1000 * msPerDay) ⟨[], []⟩ cRejectedCo).flows
          (s, "No Answer") = mapGetD (⟨[], []⟩ : FlowAcc).flows (s, "No Answer"))
      ∧ ("No Answer" ∈ (processCompany (1000 * msPerDay) ⟨[], []⟩ cRejectedCo).nodes
          ↔ "No Answer" ∈ (⟨[], []⟩ : FlowAcc).nodes)
      ∧ isStaleNoAnswer (1000 * msPerDay) cRejectedCo = false) :=
  ⟨by decide, C5_terminal_never_no_answer (1000 * msPerDay) ⟨[], []⟩ cRejectedCo
    (by decide)⟩

/-- C2 (amended): for a company that passes the entry gate (its filtered stages
contain `Applied`), has neither `Offer` nor `Rejected`, and whose
chronologically final stage is dated and stale relative to `asOf`, the company
loop adds exactly one `finalStage → "No Answer"` transition and registers the
`"No Answer"` node; when the final stage is undated, or dated within the
threshold, no `"No Answer"` edge is added and the node registration is
unchanged. -/
theorem C2_stale_no_answer_amended (asOf : Int) (acc : FlowAcc) (c : Company)
    (lastStage : Stage)
    (hlast : (sortStagesByDateThenOrder (filteredStagesOf c)).getLast? = some lastStage)
    (hoff : (filteredStagesOf c).any (fun s => s.stage_name = "Offer") = false)
    (hrej : (filteredStagesOf c).any (fun s => s.stage_name = "Rejected") = false) :
    ((filteredStagesOf c).any (fun s => s.stage_name = "Applied") = true →
      ∀ d, lastStage.date = some d → asOf - d > staleThresholdDays * msPerDay →
        (∀ s, mapGetD (processCompany asOf acc c).flows (s, "No Answer")
            = mapGetD acc.flows (s, "No Answer")
              + (if s = lastStage.stage_name then 1 else 0))
        ∧ "No Answer" ∈ (processCompany asOf acc c).nodes)
    ∧ (lastStage.date = none →
        (∀ s, mapGetD (processCompany asOf acc c).flows (s, "No Answer")
            = mapGetD acc.flows (s, "No Answer"))
        ∧ ("No Answer" ∈ (processCompany asOf acc c).nodes ↔ "No Answer" ∈ acc.nodes))
    ∧ (∀ d, lastStage.date = some d → asOf - d ≤ staleThresholdDays * msPerDay →
        (∀ s, mapGetD (processCompany asOf acc c).flows (s, "No Answer")
            = mapGetD acc.flows (s, "No Answer"))
        ∧ ("No Answer" ∈ (processCompany asOf acc c).nodes
            ↔ "No Answer" ∈ acc.nodes)) := by
  obtain ⟨s0, rest, hsr⟩ : ∃ s0 rest,
      sortStagesByDateThenOrder (filteredStagesOf c) = s0 :: rest := by
    rcases hs : sortStagesByDateThenOrder (filteredStagesOf c) with _ | ⟨s0, rest⟩
    · rw [hs] at hlast
      exact absurd hlast (by simp)
    · exact ⟨s0, rest, rfl⟩
  have hlastEq : lastStage = (s0 :: rest).getLast (List.cons_ne_nil s0 rest) := by
    rw [hsr, List.getLast?_eq_getLast _ (List.cons_ne_nil s0 rest)] at hlast
    exact (Option.some_inj.mp hlast).symm
  have hfne : (filteredStagesOf c).length ≠ 0 := by
    intro e
    have hlen : (sortStagesByDateThenOrder (filteredStagesOf c)).length = 0 := by
      rw [sortStagesByDateThenOrder, List.length_insertionSort]
      exact e
    rw [hsr] at hlen
    simp at hlen
  have hstne : c.stages.length ≠ 0 := by
    intro e
    apply hfne
    unfold filteredStagesOf
    rw [List.length_eq_zero.mp e]
    rfl
  have hnames : ∀ x ∈ s0 :: rest, x.stage_name ≠ "No Answer" := by
    intro x hx
    rw [← hsr] at hx
    exact sorted_filtered_names c x hx
  refine ⟨?_, ?_, ?_⟩
  · intro hap d hd hstale
    rw [processCompany_eq_recordFlows asOf acc c hstne hfne hap, hsr, hlastEq]
    exact recordFlows_stale asOf acc (filteredStagesOf c) s0 rest hnames hoff hrej d
      (hlastEq ▸ hd) hstale
  · intro hdn
    by_cases hap : (filteredStagesOf c).any (fun s => s.stage_name = "Applied") = false
    · rw [processCompany_eq_acc_of_not_applied asOf acc c hap]
      exact ⟨fun s => rfl, Iff.rfl⟩
    · have hap' : (filteredStagesOf c).any (fun s => s.stage_name = "Applied") = true := by
        cases hb : (filteredStagesOf c).any (fun s => s.stage_name = "Applied") with
        | false => exact absurd hb hap
        | true => rfl
      rw [processCompany_eq_recordFlows asOf acc c hstne hfne hap', hsr]
      refine recordFlows_noStale asOf acc _ s0 rest hnames ?_
      intro d' hd'
      rw [← hlastEq, hdn] at hd'
      exact Option.noConfusion hd'
  · intro d hd hfresh
    by_cases hap : (filteredStagesOf c).any (fun s => s.stage_name = "Applied") = false
    · rw [processCompany_eq_acc_of_not_applied asOf acc c hap]
      exact ⟨fun s => rfl, Iff.rfl⟩
    · have hap' : (filteredStagesOf c).any (fun s => s.stage_name = "Applied") = true := by
        cases hb : (filteredStagesOf c).any (fun s => s.stage_name = "Applied") with
        | false => exact absurd hb hap
        | true => rfl
      rw [processCompany_eq_recordFlows asOf acc c hstne hfne hap', hsr]
      refine recordFlows_noStale asOf acc _ s0 rest hnames ?_
      intro d' hd'
      rw [← hlastEq, hd] at hd'
      have hdd : d = d' := Option.some_inj.mp hd'
      subst hdd
      exact not_lt.mpr hfresh

/-- Counterexample to C2 as stated: a company whose filtered stages contain
neither `Offer` nor `Rejected`, whose final stage is dated and 45 days stale,
yet because it lacks an `Applied` stage the aggregator adds no edge and no
node at all — the claim's promised `First Interview → No Answer` edge is
absent. -/
theorem C2_counterexample :
    (filteredStagesOf cNoEntry).any (fun s => s.stage_name = "Offer") = false
    ∧ (filteredStagesOf cNoEntry).any (fun s => s.stage_name = "Rejected") = false
    ∧ (sortStagesByDateThenOrder (filteredStagesOf cNoEntry)).getLast?
        = some ⟨"First Interview", some 0, 0⟩
    ∧ asOf45 - 0 > staleThresholdDays * msPerDay
    ∧ buildAcc asOf45 [cNoEntry] = ⟨[], []⟩ := by
  decide

/-- Witness for the amended C2: the claim's own concrete example, a single
company `[Applied: day 0]` with `asOf` = day 45; one `Applied → No Answer`
edge of weight one appears and `"No Answer"` is registered. -/
theorem C2_witness :
    ((sortStagesByDateThenOrder (filteredStagesOf cApplied0)).getLast?
        = some ⟨"Applied", some 0, 0⟩)
    ∧ ((∀ s, mapGetD (processCompany asOf45 ⟨[], []⟩ cApplied0).flows
          (s, "No Answer") = mapGetD (⟨[], []⟩ : FlowAcc).flows (s, "No Answer")
            + (if s = (⟨"Applied", some 0, 0⟩ : Stage).stage_name then 1 else 0))
        ∧ "No Answer" ∈ (processCompany asOf45 ⟨[], []⟩ cApplied0).nodes) := by
  refine ⟨by decide, ?_⟩
  exact (C2_stale_no_answer_amended asOf45 ⟨[], []⟩ cApplied0 ⟨"Applied", some 0, 0⟩
    (by decide) (by decide) (by decide)).1 (by decide) 0 (by decide) (by decide)

theorem any_filter_name (l : List Stage) (node : String) (hnode : node ≠ "No Answer") :
    (l.filter (fun stage => stage.stage_name ≠ "No Answer")).any
        (fun s => s.stage_name = node)
      = l.any (fun s => s.stage_name = node) := by
  rw [List.any_filter]
  induction l with
  | nil => rfl
  | cons a rest ih =>
    simp only [List.any_cons, ih]
    congr 1
    by_cases hn : a.stage_name = node
    · have hna : (decide (a.stage_name = "No Answer")) = false := by
        simp only [decide_eq_false_iff_not]
        intro e
        exact hnode (hn ▸ e)
      simp [hn, hna, hnode]
    · simp [hn]

/-- C3 (amended): a company whose filtered stages lack `Applied` contributes
nothing to the accumulated flow graph (the loop body is the identity on the
accumulator), but the emitted occupancy counts are computed over all
companies, gate or no gate: for a name other than `"No Answer"` the occupancy
is the number of companies whose (equivalently, raw or post-filter) stage set
contains the name, and the `"No Answer"` occupancy is the number of companies
satisfying the staleness predicate. -/
theorem C3_occupancy_amended (asOf : Int) (cs : List Company) :
    (∀ (acc : FlowAcc) (c : Company),
        (filteredStagesOf c).any (fun s => s.stage_name = "Applied") = false →
        processCompany asOf acc c = acc)
    ∧ (∀ node, node ≠ "No Answer" →
        nodeOccupancy asOf cs node
          = (cs.filter (fun c => (filteredStagesOf c).any
              (fun s => s.stage_name = node))).length)
    ∧ nodeOccupancy asOf cs "No Answer"
        = (cs.filter (fun c => isStaleNoAnswer asOf c)).length := by
  refine ⟨fun acc c hap => processCompany_eq_acc_of_not_applied asOf acc c hap,
    ?_, ?_⟩
  · intro node hnode
    unfold nodeOccupancy
    rw [if_neg hnode]
    congr 1
    apply List.filter_congr
    intro c _
    unfold filteredStagesOf
    rw [any_filter_name c.stages node hnode]
  · unfold nodeOccupancy
    rw [if_pos rfl]

/-- Counterexample to C3 as stated: `cOnlyFI` lacks `Applied`, so it is gated
out of the graph, yet the emitted `First Interview` occupancy is 2 — the gated
company still increments it (alone, `cAppliedFI` would give 1). -/
theorem C3_counterexample :
    (filteredStagesOf cOnlyFI).any (fun s => s.stage_name = "Applied") = false
    ∧ "First Interview" ∈ nodeListOf 0 [cAppliedFI, cOnlyFI]
    ∧ customdataOf 0 [cAppliedFI, cOnlyFI] = [1, 2]
    ∧ nodeOccupancy 0 [cAppliedFI] "First Interview" = 1 := by
  decide

/-- Witness for the amended C3 at a concrete company list. -/
theorem C3_witness :
    (∀ (acc : FlowAcc) (c : Company),
        (filteredStagesOf c).any (fun s => s.stage_name = "Applied") = false →
        processCompany 0 acc c = acc)
    ∧ (∀ node, node ≠ "No Answer" →
        nodeOccupancy 0 [cAppliedFI, cOnlyFI] node
          = (([cAppliedFI, cOnlyFI]).filter (fun c => (filteredStagesOf c).any
              (fun s => s.stage_name = node))).length)
    ∧ nodeOccupancy 0 [cAppliedFI, cOnlyFI] "No Answer"
        = (([cAppliedFI, cOnlyFI]).filter (fun c => isStaleNoAnswer 0 c)).length :=
  C3_occupancy_amended 0 [cAppliedFI, cOnlyFI]

/-- C4: a company list whose dates were edited out of the original column
sequence (the `order` fields say Applied before First Interview, the dates say
the opposite) on which the part_001 sort-by-`order` variant and the current
sort-by-date aggregator produce different flow graphs, so the two
implementations are not equivalent. -/
theorem C4_order_vs_date_divergence :
    cEditedDates.stages.map Stage.order = [0, 1]
    ∧ cEditedDates.stages.map Stage.date = [some (10 * msPerDay), some 0]
    ∧ (buildAcc (10 * msPerDay) [cEditedDates]).flows
        = [(("First Interview", "Applied"), 1)]
    ∧ (buildAccByOrder (10 * msPerDay) [cEditedDates]).flows
        = [(("Applied", "First Interview"), 1)]
    ∧ (buildAcc (10 * msPerDay) [cEditedDates]).flows
        ≠ (buildAccByOrder (10 * msPerDay) [cEditedDates]).flows := by
  decide

/-- C8: the staleness test reads the ambient clock (`new Date()` inside
`sankeyData`), which the embedding exposes as the `asOf` argument; for the
same company list, two evaluations at different clock readings (day 30 versus
day 45) give different flow graphs, so the output is not determined by the
company list alone and `asOfDate` is not an injectable parameter in the code. -/
theorem C8_ambient_clock_dependence :
    buildAcc (30 * msPerDay) [cApplied0] ≠ buildAcc (45 * msPerDay) [cApplied0]
    ∧ (buildAcc (30 * msPerDay) [cApplied0]).flows = []
    ∧ (buildAcc (45 * msPerDay) [cApplied0]).flows = [(("Applied", "No Answer"), 1)] := by
  decide

theorem recordFlows_getD_ge_transitions (asOf : Int) (acc : FlowAcc)
    (fl : List Stage) (s0 : Stage) (rest : List Stage) (k : String × String) :
    mapGetD (addTransitions { acc with nodes := setAdd acc.nodes s0.stage_name }
        (s0 :: rest)).flows k
      ≤ mapGetD (recordFlows asOf acc fl (s0 :: rest)).flows k := by
  simp only [recordFlows]
  split
  · split
    · split
      · exact mapSet_incr_getD_mono _ _ _
      · exact le_refl _
    · exact le_refl _
  · exact le_refl _

theorem processCompany_adjacent_flow (asOf : Int) (acc : FlowAcc) (c : Company)
    (hap : (filteredStagesOf c).any (fun s => s.stage_name = "Applied") = true)
    (pre : List Stage) (a b : Stage) (post : List Stage)
    (hsr : sortStagesByDateThenOrder (filteredStagesOf c) = pre ++ a :: b :: post) :
    mapGetD acc.flows (a.stage_name, b.stage_name) + 1
      ≤ mapGetD (processCompany asOf acc c).flows (a.stage_name, b.stage_name) := by
  have hfne : (filteredStagesOf c).length ≠ 0 := by
    intro e
    have hlen : (sortStagesByDateThenOrder (filteredStagesOf c)).length = 0 := by
      rw [sortStagesByDateThenOrder, List.length_insertionSort]
      exact e
    rw [hsr] at hlen
    simp at hlen
  have hstne : c.stages.length ≠ 0 := by
    intro e
    apply hfne
    unfold filteredStagesOf
    rw [List.length_eq_zero.mp e]
    rfl
  rw [processCompany_eq_recordFlows asOf acc c hstne hfne hap, hsr]
  rcases hL : pre ++ a :: b :: post with _ | ⟨s0, rest⟩
  · exact absurd hL (List.append_ne_nil_of_right_ne_nil _ (List.cons_ne_nil _ _))
  · calc mapGetD acc.flows (a.stage_name, b.stage_name) + 1
        ≤ mapGetD (addTransitions
            { acc with nodes := setAdd acc.nodes s0.stage_name }
            (s0 :: rest)).flows (a.stage_name, b.stage_name) := by
          have hadj := addTransitions_getD_adjacent pre a b post
            ⟨acc.flows, setAdd acc.nodes s0.stage_name⟩
          rw [hL] at hadj
          exact hadj
      _ ≤ _ := recordFlows_getD_ge_transitions asOf acc (filteredStagesOf c) s0 rest _

theorem buildAcc_adjacent_flow (asOf : Int) (cs : List Company) (c : Company)
    (hc : c ∈ cs)
    (hap : (filteredStagesOf c).any (fun s => s.stage_name = "Applied") = true)
    (pre : List Stage) (a b : Stage) (post : List Stage)
    (hsr : sortStagesByDateThenOrder (filteredStagesOf c) = pre ++ a :: b :: post) :
    1 ≤ mapGetD (buildAcc asOf cs).flows (a.stage_name, b.stage_name) := by
  obtain ⟨u, v, rfl⟩ := List.append_of_mem hc
  unfold buildAcc
  rw [List.foldl_append, List.foldl_cons]
  have h1 := processCompany_adjacent_flow asOf
    (List.foldl (processCompany asOf) ⟨[], []⟩ u) c hap pre a b post hsr
  have h2 := foldl_getD_mono asOf v
    (processCompany asOf (List.foldl (processCompany asOf) ⟨[], []⟩ u) c)
    (a.stage_name, b.stage_name)
  omega

/-- C6 (amended): unrecognized stage names never make the aggregator throw
(it is total by construction), their observed transitions are still counted in
the flow map, but — contrary to the claim — they do not appear as nodes of the
emitted node list, which carries canonical names only, and `nodeMap.get` on an
unrecognized name is `undefined` (`none`), so links referencing them carry no
valid node index. -/
theorem C6_unrecognized_names_amended (asOf : Int) (cs : List Company) :
    (∀ n ∈ nodeListOf asOf cs, n ∈ stageOrder)
    ∧ (∀ n, n ∉ stageOrder → nodeMapGet asOf cs n = none)
    ∧ (∀ c ∈ cs,
        (filteredStagesOf c).any (fun s => s.stage_name = "Applied") = true →
        ∀ pre a b post,
          sortStagesByDateThenOrder (filteredStagesOf c) = pre ++ a :: b :: post →
          1 ≤ mapGetD (buildAcc asOf cs).flows (a.stage_name, b.stage_name)) := by
  refine ⟨?_, ?_, ?_⟩
  · intro n hn
    exact (List.mem_filter.mp hn).1
  · intro n hn
    unfold nodeMapGet
    rw [List.findIdx?_eq_none_iff]
    intro x hx
    simp only [decide_eq_false_iff_not]
    intro e
    subst e
    exact hn (List.mem_filter.mp hx).1
  · intro c hc hap pre a b post hsr
    exact buildAcc_adjacent_flow asOf cs c hc hap pre a b post hsr

/-- Counterexample to C6 as stated: with the unrecognized stage name
`"Phone Screen"`, the internal node set records it and its transition is
counted, but the emitted node list omits it, and the one emitted link carries
an undefined (`none`) target index. -/
theorem C6_counterexample :
    "Phone Screen" ∉ stageOrder
    ∧ "Phone Screen" ∈ (buildAcc 0 [cUnknownCo]).nodes
    ∧ "Phone Screen" ∉ nodeListOf 0 [cUnknownCo]
    ∧ mapGetD (buildAcc 0 [cUnknownCo]).flows ("Applied", "Phone Screen") = 1
    ∧ linksOf 0 [cUnknownCo] = [⟨some 0, none, 1⟩] := by
  decide

/-- Witness for the amended C6 at a concrete company list containing an
unrecognized stage name. -/
theorem C6_witness :
    (∀ n ∈ nodeListOf 0 [cUnknownCo], n ∈ stageOrder)
    ∧ (∀ n, n ∉ stageOrder → nodeMapGet 0 [cUnknownCo] n = none)
    ∧ (∀ c ∈ [cUnknownCo],
        (filteredStagesOf c).any (fun s => s.stage_name = "Applied") = true →
        ∀ pre a b post,
          sortStagesByDateThenOrder (filteredStagesOf c) = pre ++ a :: b :: post →
          1 ≤ mapGetD (buildAcc 0 [cUnknownCo]).flows (a.stage_name, b.stage_name)) :=
  C6_unrecognized_names_amended 0 [cUnknownCo]

/-! ### Every flow key refers to registered nodes, and nodes stay canonical
when the input names are canonical -/

theorem addPair_inv {acc : FlowAcc} {s t : String}
    (h : ∀ kv ∈ acc.flows, kv.1.1 ∈ acc.nodes ∧ kv.1.2 ∈ acc.nodes) :
    ∀ kv ∈ (addPair acc s t).flows,
      kv.1.1 ∈ (addPair acc s t).nodes ∧ kv.1.2 ∈ (addPair acc s t).nodes := by
  intro kv hkv
  rcases mapSet_key_mem kv hkv with e | e
  · rw [e]
    exact ⟨addPair_nodes_mem.mpr (Or.inr (Or.inl rfl)),
      addPair_nodes_mem.mpr (Or.inl rfl)⟩
  · have hk := h kv e
    exact ⟨addPair_nodes_mem.mpr (Or.inr (Or.inr hk.1)),
      addPair_nodes_mem.mpr (Or.inr (Or.inr hk.2))⟩

theorem addTransitions_inv (l : List Stage) (acc : FlowAcc)
    (h : ∀ kv ∈ acc.flows, kv.1.1 ∈ acc.nodes ∧ kv.1.2 ∈ acc.nodes) :
    ∀ kv ∈ (addTransitions acc l).flows,
      kv.1.1 ∈ (addTransitions acc l).nodes ∧ kv.1.2 ∈ (addTransitions acc l).nodes := by
  induction l generalizing acc with
  | nil => simpa [addTransitions] using h
  | cons a rest ih =>
    cases rest with
    | nil => simpa [addTransitions] using h
    | cons b rest' =>
      rw [addTransitions]
      exact ih _ (addPair_inv h)

theorem recordFlows_inv (asOf : Int) (acc : FlowAcc) (fl sl : List Stage)
    (h : ∀ kv ∈ acc.flows, kv.1.1 ∈ acc.nodes ∧ kv.1.2 ∈ acc.nodes) :
    ∀ kv ∈ (recordFlows asOf acc fl sl).flows,
      kv.1.1 ∈ (recordFlows asOf acc fl sl).nodes
      ∧ kv.1.2 ∈ (recordFlows asOf acc fl sl).nodes := by
  cases sl with
  | nil => simpa [recordFlows] using h
  | cons s0 rest =>
    have hacc1 : ∀ kv ∈ acc.flows,
        kv.1.1 ∈ setAdd acc.nodes s0.stage_name
        ∧ kv.1.2 ∈ setAdd acc.nodes s0.stage_name := by
      intro kv hkv
      exact ⟨setAdd_mem_iff.mpr (Or.inr (h kv hkv).1),
        setAdd_mem_iff.mpr (Or.inr (h kv hkv).2)⟩
    have hacc2 := addTransitions_inv (s0 :: rest)
      ⟨acc.flows, setAdd acc.nodes s0.stage_name⟩ hacc1
    have hlastmem : ((s0 :: rest).getLast (List.cons_ne_nil s0 rest)).stage_name
        ∈ (addTransitions ⟨acc.flows, setAdd acc.nodes s0.stage_name⟩
            (s0 :: rest)).nodes := by
      apply addTransitions_names_mem s0 rest
        ⟨acc.flows, setAdd acc.nodes s0.stage_name⟩
        (setAdd_mem_iff.mpr (Or.inl rfl))
      exact List.getLast_mem (List.cons_ne_nil s0 rest)
    simp only [recordFlows]
    split
    · split
      · split
        · intro kv hkv
          rcases mapSet_key_mem kv hkv with e | e
          · rw [e]
            exact ⟨setAdd_mem_iff.mpr (Or.inr hlastmem),
              setAdd_mem_iff.mpr (Or.inl rfl)⟩
          · have hk := hacc2 kv e
            exact ⟨setAdd_mem_iff.mpr (Or.inr hk.1),
              setAdd_mem_iff.mpr (Or.inr hk.2)⟩
        · exact hacc2
      · exact hacc2
    · exact hacc2

theorem processCompany_inv (asOf : Int) (acc : FlowAcc) (c : Company)
    (h : ∀ kv ∈ acc.flows, kv.1.1 ∈ acc.nodes ∧ kv.1.2 ∈ acc.nodes) :
    ∀ kv ∈ (processCompany asOf acc c).flows,
      kv.1.1 ∈ (processCompany asOf acc c).nodes
      ∧ kv.1.2 ∈ (processCompany asOf acc c).nodes := by
  simp only [processCompany]
  split
  · exact h
  · split
    · exact h
    · split
      · exact h
      · exact recordFlows_inv asOf acc _ _ h

theorem buildAcc_inv (asOf : Int) (cs : List Company) :
    ∀ kv ∈ (buildAcc asOf cs).flows,
      kv.1.1 ∈ (buildAcc asOf cs).nodes ∧ kv.1.2 ∈ (buildAcc asOf cs).nodes := by
  unfold buildAcc
  suffices hgen : ∀ (acc : FlowAcc),
      (∀ kv ∈ acc.flows, kv.1.1 ∈ acc.nodes ∧ kv.1.2 ∈ acc.nodes) →
      ∀ kv ∈ (cs.foldl (processCompany asOf) acc).flows,
        kv.1.1 ∈ (cs.foldl (processCompany asOf) acc).nodes
        ∧ kv.1.2 ∈ (cs.foldl (processCompany asOf) acc).nodes by
    exact hgen ⟨[], []⟩ (by intro kv hkv; cases hkv)
  induction cs with
  | nil => intro acc h; simpa using h
  | cons c rest ih =>
    intro acc h
    rw [List.foldl_cons]
    exact ih _ (processCompany_inv asOf acc c h)

theorem setAdd_forall {s : List String} {x : String} {P : String → Prop}
    (hx : P x) (h : ∀ n ∈ s, P n) : ∀ n ∈ setAdd s x, P n := by
  intro n hn
  rcases setAdd_mem_iff.mp hn with e | e
  · exact e ▸ hx
  · exact h n e

theorem addTransitions_nodes_forall (l : List Stage) (acc : FlowAcc)
    {P : String → Prop}
    (hl : ∀ x ∈ l, P x.stage_name) (h : ∀ n ∈ acc.nodes, P n) :
    ∀ n ∈ (addTransitions acc l).nodes, P n := by
  induction l generalizing acc with
  | nil => simpa [addTransitions] using h
  | cons a rest ih =>
    cases rest with
    | nil => simpa [addTransitions] using h
    | cons b rest' =>
      rw [addTransitions]
      apply ih
      · intro x hx
        exact hl x (List.mem_cons_of_mem _ hx)
      · show ∀ n ∈ setAdd (setAdd acc.nodes a.stage_name) b.stage_name, P n
        exact setAdd_forall
          (hl b (List.mem_cons_of_mem _ (List.mem_cons_self _ _)))
          (setAdd_forall (hl a (List.mem_cons_self _ _)) h)

theorem recordFlows_nodes_forall (asOf : Int) (acc : FlowAcc) (fl sl : List Stage)
    {P : String → Prop}
    (hl : ∀ x ∈ sl, P x.stage_name) (hNA : P "No Answer")
    (h : ∀ n ∈ acc.nodes, P n) :
    ∀ n ∈ (recordFlows asOf acc fl sl).nodes, P n := by
  cases sl with
  | nil => simpa [recordFlows] using h
  | cons s0 rest =>
    have h1 : ∀ n ∈ setAdd acc.nodes s0.stage_name, P n :=
      setAdd_forall (hl s0 (List.mem_cons_self _ _)) h
    have h2 : ∀ n ∈ (addTransitions ⟨acc.flows, setAdd acc.nodes s0.stage_name⟩
        (s0 :: rest)).nodes, P n :=
      addTransitions_nodes_forall (s0 :: rest) _ hl h1
    simp only [recordFlows]
    split
    · split
      · split
        · exact setAdd_forall hNA h2
        · exact h2
      · exact h2
    · exact h2

theorem processCompany_nodes_forall (asOf : Int) (acc : FlowAcc) (c : Company)
    {P : String → Prop}
    (hc : ∀ s ∈ c.stages, P s.stage_name) (hNA : P "No Answer")
    (h : ∀ n ∈ acc.nodes, P n) :
    ∀ n ∈ (processCompany asOf acc c).nodes, P n := by
  simp only [processCompany]
  split
  · exact h
  · split
    · exact h
    · split
      · exact h
      · apply recordFlows_nodes_forall asOf acc _ _ _ hNA h
        intro x hx
        have hxf : x ∈ filteredStagesOf c := (List.mem_insertionSort stageRel).mp hx
        exact hc x (List.mem_of_mem_filter hxf)

theorem buildAcc_nodes_forall (asOf : Int) (cs : List Company)
    {P : String → Prop}
    (hcs : ∀ c ∈ cs, ∀ s ∈ c.stages, P s.stage_name) (hNA : P "No Answer") :
    ∀ n ∈ (buildAcc asOf cs).nodes, P n := by
  unfold buildAcc
  suffices hgen : ∀ (acc : FlowAcc), (∀ n ∈ acc.nodes, P n) →
      ∀ n ∈ (cs.foldl (processCompany asOf) acc).nodes, P n by
    exact hgen ⟨[], []⟩ (by intro n hn; cases hn)
  induction cs with
  | nil => intro acc h; simpa using h
  | cons c rest ih =>
    intro acc h
    rw [List.foldl_cons]
    exact ih (fun c' hc' => hcs c' (List.mem_cons_of_mem _ hc'))
      _ (processCompany_nodes_forall asOf acc c
        (hcs c (List.mem_cons_self _ _)) hNA h)

/-- C10: when every stage name in the company list is canonical, every emitted
link has defined source and target indices referring to positions of the
emitted node list. -/
theorem C10_links_well_indexed (asOf : Int) (cs : List Company)
    (hcanon : ∀ c ∈ cs, ∀ s ∈ c.stages, s.stage_name ∈ stageOrder) :
    ∀ link ∈ linksOf asOf cs,
      ∃ i j, link.source = some i ∧ link.target = some j
        ∧ i < (nodeListOf asOf cs).length ∧ j < (nodeListOf asOf cs).length := by
  intro link hlink
  unfold linksOf at hlink
  obtain ⟨kv, hkv, rfl⟩ := List.mem_map.mp hlink
  have hkvflows : kv ∈ (buildAcc asOf cs).flows := by
    unfold sortedFlowsOf at hkv
    exact (List.mem_insertionSort flowRel).mp hkv
  have hinv := buildAcc_inv asOf cs kv hkvflows
  have hcan := buildAcc_nodes_forall asOf cs hcanon
    (show "No Answer" ∈ stageOrder by decide)
  have hmemList : ∀ n, n ∈ (buildAcc asOf cs).nodes → n ∈ nodeListOf asOf cs := by
    intro n hn
    unfold nodeListOf
    exact List.mem_filter.mpr ⟨hcan n hn, decide_eq_true hn⟩
  have hidx : ∀ n ∈ nodeListOf asOf cs,
      ∃ i, nodeMapGet asOf cs n = some i ∧ i < (nodeListOf asOf cs).length := by
    intro n hn
    unfold nodeMapGet
    have hex : ∃ x, x ∈ nodeListOf asOf cs ∧ (fun x => decide (x = n)) x = true :=
      ⟨n, hn, by simp⟩
    rw [List.findIdx?_eq_some_of_exists hex]
    exact ⟨_, rfl, List.findIdx_lt_length_of_exists hex⟩
  obtain ⟨i, hi, hil⟩ := hidx kv.1.1 (hmemList _ hinv.1)
  obtain ⟨j, hj, hjl⟩ := hidx kv.1.2 (hmemList _ hinv.2)
  exact ⟨i, j, hi, hj, hil, hjl⟩

/-- Witness for C10 at a concrete all-canonical company list. -/
theorem C10_witness :
    (∀ c ∈ [cAppliedFI, cApplied0], ∀ s ∈ c.stages, s.stage_name ∈ stageOrder)
    ∧ (∀ link ∈ linksOf asOf45 [cAppliedFI, cApplied0],
        ∃ i j, link.source = some i ∧ link.target = some j
          ∧ i < (nodeListOf asOf45 [cAppliedFI, cApplied0]).length
          ∧ j < (nodeListOf asOf45 [cAppliedFI, cApplied0]).length) :=
  ⟨by decide, C10_links_well_indexed asOf45 [cAppliedFI, cApplied0] (by decide)⟩

/-! ### Permutation invariance for same-dated canonical stage sets -/

theorem rankOf_inj {s t : String} (hs : s ∈ stageOrder) (ht : t ∈ stageOrder)
    (h : rankOf s = rankOf t) : s = t := by
  unfold rankOf at h
  have hs1 : jsIndexOf stageOrder s ≠ -1 :=
    fun e => ((jsIndexOf_eq_neg_one_iff _ _).mp e) hs
  have ht1 : jsIndexOf stageOrder t ≠ -1 :=
    fun e => ((jsIndexOf_eq_neg_one_iff _ _).mp e) ht
  rw [if_neg hs1, if_neg ht1] at h
  exact jsIndexOf_inj hs ht (by exact_mod_cast h)

theorem perm_any {l l' : List Stage} (h : l.Perm l') (p : Stage → Bool) :
    l.any p = l'.any p := by
  have hiff : l.any p = true ↔ l'.any p = true := by
    simp only [List.any_eq_true]
    constructor <;> rintro ⟨x, hx, hpx⟩
    · exact ⟨x, h.subset hx, hpx⟩
    · exact ⟨x, h.symm.subset hx, hpx⟩
  cases hb : l'.any p with
  | true => exact hiff.mpr hb
  | false =>
    cases hl : l.any p with
    | false => rfl
    | true =>
      have := hiff.mp hl
      rw [hb] at this
      exact Bool.noConfusion this

theorem addTransitions_congr_names (acc : FlowAcc) (l l' : List Stage)
    (h : l.map Stage.stage_name = l'.map Stage.stage_name) :
    addTransitions acc l = addTransitions acc l' := by
  induction l generalizing l' acc with
  | nil =>
    cases l' with
    | nil => rfl
    | cons a' rest' => simp at h
  | cons a rest ih =>
    cases l' with
    | nil => simp at h
    | cons a' rest' =>
      simp only [List.map_cons, List.cons.injEq] at h
      obtain ⟨ha, hrest⟩ := h
      cases rest with
      | nil =>
        cases rest' with
        | nil => rfl
        | cons b' rest2' => simp at hrest
      | cons b rest2 =>
        cases rest' with
        | nil => simp at hrest
        | cons b' rest2' =>
          have hb : b.stage_name = b'.stage_name := by
            simp only [List.map_cons, List.cons.injEq] at hrest
            exact hrest.1
          rw [addTransitions, addTransitions, ha, hb]
          exact ih _ _ hrest

theorem sort_names_unique (l l' : List Stage) (d : Int)
    (hperm : l'.Perm l)
    (hd : ∀ s ∈ l, s.date = some d)
    (hn : ∀ s ∈ l, s.stage_name ∈ stageOrder) :
    (sortStagesByDateThenOrder l').map Stage.stage_name
      = (sortStagesByDateThenOrder l).map Stage.stage_name := by
  haveI : IsTotal Stage stageRel := ⟨stageRel_total⟩
  haveI : IsTrans Stage stageRel := ⟨stageRel_trans⟩
  have hd' : ∀ s ∈ l', s.date = some d := fun s hs => hd s (hperm.subset hs)
  have hn' : ∀ s ∈ l', s.stage_name ∈ stageOrder := fun s hs => hn s (hperm.subset hs)
  have key : ∀ (m : List Stage), (∀ s ∈ m, s.date = some d) →
      (∀ s ∈ m, s.stage_name ∈ stageOrder) →
      ((sortStagesByDateThenOrder m).map Stage.stage_name).Pairwise nameRel := by
    intro m hdm hnm
    have hs : (List.insertionSort stageRel m).Pairwise stageRel :=
      List.sorted_insertionSort stageRel m
    rw [sortStagesByDateThenOrder, List.pairwise_map]
    refine List.Pairwise.imp_of_mem ?_ hs
    intro a b ha hb hab
    have ham : a ∈ m := (List.mem_insertionSort stageRel).mp ha
    have hbm : b ∈ m := (List.mem_insertionSort stageRel).mp hb
    have hkey := (stageRel_iff a b).mp hab
    have hda : dateKey a = (d : WithTop Int) := by
      unfold dateKey
      rw [hdm a ham]
    have hdb : dateKey b = (d : WithTop Int) := by
      unfold dateKey
      rw [hdm b hbm]
    rcases hkey with hlt | ⟨-, hrk⟩
    · rw [hda, hdb] at hlt
      exact absurd hlt (lt_irrefl _)
    · rcases lt_or_eq_of_le hrk with h1 | h1
      · exact Or.inl h1
      · exact Or.inr (rankOf_inj (hnm a ham) (hnm b hbm) h1)
  have hp : ((sortStagesByDateThenOrder l').map Stage.stage_name).Perm
      ((sortStagesByDateThenOrder l).map Stage.stage_name) :=
    (((List.perm_insertionSort stageRel l').trans hperm).trans
      (List.perm_insertionSort stageRel l).symm).map _
  haveI : IsAntisymm String nameRel := ⟨by
    intro a b h1 h2
    rcases h1 with h1 | h1
    · rcases h2 with h2 | h2
      · exact absurd h1 (lt_asymm h2)
      · exact h2.symm
    · exact h1⟩
  exact List.eq_of_perm_of_sorted hp (key l' hd' hn') (key l hd hn)

theorem recordFlows_congr (asOf : Int) (acc : FlowAcc)
    (fl fl' sl sl' : List Stage) (d : Int)
    (hoffEq : fl'.any (fun s => s.stage_name = "Offer")
        = fl.any (fun s => s.stage_name = "Offer"))
    (hrejEq : fl'.any (fun s => s.stage_name = "Rejected")
        = fl.any (fun s => s.stage_name = "Rejected"))
    (hmap : sl'.map Stage.stage_name = sl.map Stage.stage_name)
    (hd : ∀ s ∈ sl, s.date = some d) (hd' : ∀ s ∈ sl', s.date = some d) :
    recordFlows asOf acc fl' sl' = recordFlows asOf acc fl sl := by
  cases sl with
  | nil =>
    cases sl' with
    | nil => rfl
    | cons a' rest' => simp at hmap
  | cons s0 rest =>
    cases sl' with
    | nil => simp at hmap
    | cons s0' rest' =>
      have hh : s0'.stage_name = s0.stage_name := by
        simp only [List.map_cons, List.cons.injEq] at hmap
        exact hmap.1
      have hlastname : ((s0' :: rest').getLast (List.cons_ne_nil s0' rest')).stage_name
          = ((s0 :: rest).getLast (List.cons_ne_nil s0 rest)).stage_name := by
        have hml : ((s0' :: rest').map Stage.stage_name).getLast?
            = ((s0 :: rest).map Stage.stage_name).getLast? := by
          rw [hmap]
        rw [List.getLast?_map, List.getLast?_map,
          List.getLast?_eq_getLast _ (List.cons_ne_nil s0' rest'),
          List.getLast?_eq_getLast _ (List.cons_ne_nil s0 rest)] at hml
        simpa using hml
      have hld : ((s0 :: rest).getLast (List.cons_ne_nil s0 rest)).date = some d :=
        hd _ (List.getLast_mem _)
      have hld' : ((s0' :: rest').getLast (List.cons_ne_nil s0' rest')).date = some d :=
        hd' _ (List.getLast_mem _)
      simp only [recordFlows]
      rw [hh, hoffEq, hrejEq,
        addTransitions_congr_names
          ⟨acc.flows, setAdd acc.nodes s0.stage_name⟩ (s0' :: rest') (s0 :: rest) hmap,
        hld, hld', hlastname]

/-- C7 (amended): for a company whose stages all carry the same date and whose
stage names all belong to the canonical vocabulary, permuting the input stage
array changes neither the sorted stage-name sequence nor the company's whole
contribution to the flow graph. -/
theorem C7_permutation_invariance_amended (asOf : Int) (acc : FlowAcc)
    (c c' : Company) (d : Int)
    (hperm : c'.stages.Perm c.stages)
    (hdates : ∀ s ∈ c.stages, s.date = some d)
    (hnames : ∀ s ∈ c.stages, s.stage_name ∈ stageOrder) :
    (sortStagesByDateThenOrder (filteredStagesOf c')).map Stage.stage_name
      = (sortStagesByDateThenOrder (filteredStagesOf c)).map Stage.stage_name
    ∧ processCompany asOf acc c' = processCompany asOf acc c := by
  have hF : (filteredStagesOf c').Perm (filteredStagesOf c) := hperm.filter _
  have hdF : ∀ s ∈ filteredStagesOf c, s.date = some d :=
    fun s hs => hdates s (List.mem_of_mem_filter hs)
  have hnF : ∀ s ∈ filteredStagesOf c, s.stage_name ∈ stageOrder :=
    fun s hs => hnames s (List.mem_of_mem_filter hs)
  have hmap := sort_names_unique (filteredStagesOf c) (filteredStagesOf c') d hF hdF hnF
  refine ⟨hmap, ?_⟩
  by_cases h0 : c.stages.length = 0
  · have h0' : c'.stages.length = 0 := by
      rw [hperm.length_eq]
      exact h0
    simp only [processCompany, if_pos h0, if_pos h0']
  · have h0' : ¬c'.stages.length = 0 := by
      rw [hperm.length_eq]
      exact h0
    by_cases h1 : (filteredStagesOf c).length = 0
    · have h1' : (filteredStagesOf c').length = 0 := by
        rw [hF.length_eq]
        exact h1
      simp only [processCompany, if_neg h0, if_neg h0', if_pos h1, if_pos h1']
    · have h1' : ¬(filteredStagesOf c').length = 0 := by
        rw [hF.length_eq]
        exact h1
      have hapEq : (filteredStagesOf c').any (fun s => s.stage_name = "Applied")
          = (filteredStagesOf c).any (fun s => s.stage_name = "Applied") :=
        perm_any hF _
      by_cases h2 : (filteredStagesOf c).any (fun s => s.stage_name = "Applied") = false
      · rw [processCompany_eq_acc_of_not_applied asOf acc c h2,
          processCompany_eq_acc_of_not_applied asOf acc c' (hapEq.trans h2)]
      · have hap : (filteredStagesOf c).any
            (fun s => s.stage_name = "Applied") = true := by
          cases hb : (filteredStagesOf c).any (fun s => s.stage_name = "Applied") with
          | false => exact absurd hb h2
          | true => rfl
        rw [processCompany_eq_recordFlows asOf acc c h0 h1 hap,
          processCompany_eq_recordFlows asOf acc c' h0' h1' (hapEq.trans hap)]
        exact recordFlows_congr asOf acc (filteredStagesOf c) (filteredStagesOf c')
          (sortStagesByDateThenOrder (filteredStagesOf c))
          (sortStagesByDateThenOrder (filteredStagesOf c')) d
          (perm_any hF _) (perm_any hF _) hmap
          (fun s hs => hdF s ((List.mem_insertionSort stageRel).mp hs))
          (fun s hs => hdates s (hperm.subset
            (List.mem_of_mem_filter ((List.mem_insertionSort stageRel).mp hs))))

/-- Counterexample to C7 as stated: two permutations of the same same-dated
stage array containing two unrecognized names produce different flow graphs
(the tie between the unrecognized names is broken by input order). -/
theorem C7_counterexample :
    cTieYX.stages.Perm cTieXY.stages
    ∧ cTieXY.stages.map Stage.date = [some 0, some 0, some 0]
    ∧ cTieYX.stages.map Stage.date = [some 0, some 0, some 0]
    ∧ (buildAcc 0 [cTieXY]).flows ≠ (buildAcc 0 [cTieYX]).flows := by
  decide

/-- Witness for the amended C7 at two concrete permutations of a same-dated
canonical stage array. -/
theorem C7_witness :
    (sortStagesByDateThenOrder (filteredStagesOf cPermB)).map Stage.stage_name
      = (sortStagesByDateThenOrder (filteredStagesOf cPermA)).map Stage.stage_name
    ∧ processCompany 0 ⟨[], []⟩ cPermB = processCompany 0 ⟨[], []⟩ cPermA :=
  C7_permutation_invariance_amended 0 ⟨[], []⟩ cPermA cPermB 0
    (by decide) (by decide) (by decide)

/-! ### The heap-passing aggregator never mutates caller-owned arrays -/

theorem heap_read_alloc_old (h : Heap) (v : List Stage) {r : Nat}
    (hr : r < h.cells.length) : (h.alloc v).1.read r = h.read r := by
  unfold Heap.alloc Heap.read
  rw [List.getElem?_append_left hr]

theorem heap_read_alloc_new (h : Heap) (v : List Stage) :
    (h.alloc v).1.read (h.alloc v).2 = v := by
  unfold Heap.alloc Heap.read
  rw [List.getElem?_concat_length]
  rfl

theorem heap_length_alloc (h : Heap) (v : List Stage) :
    (h.alloc v).1.cells.length = h.cells.length + 1 := by
  simp [Heap.alloc]

theorem heap_read_write_self (h : Heap) (r : Nat) (v : List Stage)
    (hr : r < h.cells.length) : (h.write r v).read r = v := by
  unfold Heap.write Heap.read
  rw [List.getElem?_set_self hr]
  rfl

theorem heap_read_write_ne (h : Heap) {r r' : Nat} (v : List Stage)
    (hne : r ≠ r') : (h.write r v).read r' = h.read r' := by
  unfold Heap.write Heap.read
  rw [List.getElem?_set_ne hne]

theorem heap_length_write (h : Heap) (r : Nat) (v : List Stage) :
    (h.write r v).cells.length = h.cells.length := by
  simp [Heap.write]

theorem sortStagesByDateThenOrderH_spec (h : Heap) (r : Nat) :
    (∀ r', r' < h.cells.length →
      (sortStagesByDateThenOrderH h r).1.read r' = h.read r')
    ∧ (sortStagesByDateThenOrderH h r).2 = h.cells.length
    ∧ (sortStagesByDateThenOrderH h r).1.read (sortStagesByDateThenOrderH h r).2
        = sortStagesByDateThenOrder (h.read r)
    ∧ (sortStagesByDateThenOrderH h r).1.cells.length = h.cells.length + 1 := by
  refine ⟨?_, rfl, ?_, ?_⟩
  · intro r' hr'
    show ((h.alloc (h.read r)).1.write (h.alloc (h.read r)).2 _).read r' = h.read r'
    rw [heap_read_write_ne _ _ (by
      show h.cells.length ≠ r'
      omega)]
    exact heap_read_alloc_old h _ hr'
  · show ((h.alloc (h.read r)).1.write (h.alloc (h.read r)).2 _).read
        (h.alloc (h.read r)).2 = _
    rw [heap_read_write_self _ _ _ (by
      rw [heap_length_alloc]
      show h.cells.length < h.cells.length + 1
      omega)]
    rw [heap_read_alloc_new h (h.read r)]
    rfl
  · show ((h.alloc (h.read r)).1.write _ _).cells.length = _
    rw [heap_length_write, heap_length_alloc]

theorem processCompanyH_spec (asOf : Int) (h : Heap) (acc : FlowAcc) (c : HCompany) :
    (∀ r', r' < h.cells.length →
      (processCompanyH asOf (h, acc) c).1.read r' = h.read r')
    ∧ h.cells.length ≤ (processCompanyH asOf (h, acc) c).1.cells.length
    ∧ (processCompanyH asOf (h, acc) c).2
        = processCompany asOf acc (HCompany.toCompany h c) := by
  have hReadF : (h.alloc ((h.read c.stagesRef).filter
        (fun stage => stage.stage_name ≠ "No Answer"))).1.read
      (h.alloc ((h.read c.stagesRef).filter
        (fun stage => stage.stage_name ≠ "No Answer"))).2
      = (h.read c.stagesRef).filter (fun stage => stage.stage_name ≠ "No Answer") :=
    heap_read_alloc_new h _
  simp only [processCompanyH]
  by_cases hlen : (h.read c.stagesRef).length = 0
  · rw [if_pos hlen]
    refine ⟨fun r' _ => rfl, le_refl _, ?_⟩
    simp only [processCompany, HCompany.toCompany]
    rw [if_pos hlen]
  · rw [if_neg hlen, hReadF]
    by_cases hflen : ((h.read c.stagesRef).filter
        (fun stage => stage.stage_name ≠ "No Answer")).length = 0
    · rw [if_pos hflen]
      refine ⟨fun r' hr' => heap_read_alloc_old h _ hr', ?_, ?_⟩
      · rw [heap_length_alloc]
        omega
      · simp only [processCompany, HCompany.toCompany, filteredStagesOf]
        rw [if_neg hlen, if_pos hflen]
    · rw [if_neg hflen]
      by_cases hap : ((h.read c.stagesRef).filter
          (fun stage => stage.stage_name ≠ "No Answer")).any
          (fun s => s.stage_name = "Applied") = false
      · rw [if_pos hap]
        refine ⟨fun r' hr' => heap_read_alloc_old h _ hr', ?_, ?_⟩
        · rw [heap_length_alloc]
          omega
        · simp only [processCompany, HCompany.toCompany, filteredStagesOf]
          rw [if_neg hlen, if_neg hflen, if_pos hap]
      · rw [if_neg hap]
        obtain ⟨hsframe, hsref, hsval, hslen⟩ :=
          sortStagesByDateThenOrderH_spec
            (h.alloc ((h.read c.stagesRef).filter
              (fun stage => stage.stage_name ≠ "No Answer"))).1
            (h.alloc ((h.read c.stagesRef).filter
              (fun stage => stage.stage_name ≠ "No Answer"))).2
        have hlt : (h.alloc ((h.read c.stagesRef).filter
            (fun stage => stage.stage_name ≠ "No Answer"))).2
            < (h.alloc ((h.read c.stagesRef).filter
              (fun stage => stage.stage_name ≠ "No Answer"))).1.cells.length := by
          rw [heap_length_alloc]
          show h.cells.length < h.cells.length + 1
          omega
        have hreadF2 := hsframe _ hlt
        rw [hReadF] at hreadF2
        have hreadSorted := hsval
        rw [hReadF] at hreadSorted
        rw [hreadF2, hreadSorted]
        have hap' : ((h.read c.stagesRef).filter
            (fun stage => stage.stage_name ≠ "No Answer")).any
            (fun s => s.stage_name = "Applied") = true := by
          cases hb : ((h.read c.stagesRef).filter
              (fun stage => stage.stage_name ≠ "No Answer")).any
              (fun s => s.stage_name = "Applied") with
          | false => exact absurd hb hap
          | true => rfl
        refine ⟨?_, ?_, ?_⟩
        · intro r' hr'
          rw [hsframe r' (by rw [heap_length_alloc]; omega)]
          exact heap_read_alloc_old h _ hr'
        · rw [hslen, heap_length_alloc]
          omega
        · rw [processCompany_eq_recordFlows asOf acc (HCompany.toCompany h c)
            hlen hflen hap']
          rfl

theorem sankeyAccH_foldl_spec (asOf : Int) (cs : List HCompany) :
    ∀ (h : Heap) (acc : FlowAcc),
      (∀ c ∈ cs, c.stagesRef < h.cells.length) →
      (∀ r', r' < h.cells.length →
        (cs.foldl (processCompanyH asOf) (h, acc)).1.read r' = h.read r')
      ∧ h.cells.length ≤ (cs.foldl (processCompanyH asOf) (h, acc)).1.cells.length
      ∧ (cs.foldl (processCompanyH asOf) (h, acc)).2
          = (cs.map (HCompany.toCompany h)).foldl (processCompany asOf) acc := by
  induction cs with
  | nil => exact fun h acc _ => ⟨fun r' _ => rfl, le_refl _, rfl⟩
  | cons c rest ih =>
    intro h acc href
    rw [List.foldl_cons]
    obtain ⟨hframe1, hlen1, hacc1⟩ := processCompanyH_spec asOf h acc c
    have href' : ∀ c' ∈ rest, c'.stagesRef < (processCompanyH asOf (h, acc) c).1.cells.length :=
      fun c' hc' => lt_of_lt_of_le (href c' (List.mem_cons_of_mem _ hc')) hlen1
    obtain ⟨hframe2, hlen2, hacc2⟩ := ih (processCompanyH asOf (h, acc) c).1
      (processCompanyH asOf (h, acc) c).2 href'
    have hpair : ((processCompanyH asOf (h, acc) c).1,
        (processCompanyH asOf (h, acc) c).2) = processCompanyH asOf (h, acc) c := rfl
    rw [hpair] at hframe2 hlen2 hacc2
    have hmapeq : rest.map (HCompany.toCompany (processCompanyH asOf (h, acc) c).1)
        = rest.map (HCompany.toCompany h) := by
      apply List.map_congr_left
      intro c' hc'
      unfold HCompany.toCompany
      rw [hframe1 c'.stagesRef (href c' (List.mem_cons_of_mem _ hc'))]
    refine ⟨?_, ?_, ?_⟩
    · intro r' hr'
      rw [hframe2 r' (lt_of_lt_of_le hr' hlen1)]
      exact hframe1 r' hr'
    · exact le_trans hlen1 hlen2
    · rw [hacc2, hmapeq, List.map_cons, List.foldl_cons, hacc1]

/-- C9: the aggregator mutates no caller-owned record: running the heap-level
company loop leaves every pre-existing heap cell (every caller-owned stage
array, hence its element order) unchanged — sorting and filtering happen on
freshly allocated copies — and its output coincides with the pure
aggregation of the denoted companies. -/
theorem C9_no_mutation (asOf : Int) (h : Heap) (cs : List HCompany)
    (href : ∀ c ∈ cs, c.stagesRef < h.cells.length) :
    (∀ r, r < h.cells.length → (sankeyAccH asOf h cs).1.read r = h.read r)
    ∧ (sankeyAccH asOf h cs).2 = buildAcc asOf (cs.map (HCompany.toCompany h)) := by
  obtain ⟨hframe, -, hacc⟩ := sankeyAccH_foldl_spec asOf cs h ⟨[], []⟩ href
  exact ⟨hframe, hacc⟩

/-- Witness for C9 at a concrete one-cell heap. -/
theorem C9_witness :
    (∀ c ∈ [hco0], c.stagesRef < heap0.cells.length)
    ∧ ((∀ r, r < heap0.cells.length →
          (sankeyAccH asOf45 heap0 [hco0]).1.read r = heap0.read r)
      ∧ (sankeyAccH asOf45 heap0 [hco0]).2
          = buildAcc asOf45 ([hco0].map (HCompany.toCompany heap0))) :=
  ⟨by decide, C9_no_mutation asOf45 heap0 [hco0] (by decide)⟩
